import Mathlib

/-!
A shallow embedding of the FastYZ Yaz0 codec (fastyz.c / fastyz.h).

Buffers are `List Nat` of byte values, pointers become indices into the
list, and machine-integer truncations are written as explicit `% 2 ^ w`.
The compressor (`yaz0_compress`), its writer state machine
(`writer_emit_literals`, `writer_emit_match`), the match finder
(`compare_match`, `findMatch`) and the decompressor (`yaz0_decompress`)
are translated function by function from the C source.
-/

namespace FastYZ

/-! ### Memory access utilities (fastyz.c lines 96-116) -/

/-- Unaligned little-endian 32-bit load, `read_u32`. -/
def read_u32 (x : List Nat) (p : Nat) : Nat :=
  (x.getD (p + 3) 0) <<< 24 ||| (x.getD (p + 2) 0) <<< 16 |||
    (x.getD (p + 1) 0) <<< 8 ||| x.getD p 0

/-- Multiplicative hash, `compute_hash` (HASH_LOG = 14). The product is
exact in 64 bits in C, the shift result is truncated to `uint32_t`. -/
def compute_hash (v : Nat) : Nat :=
  (((v * 2654435769) >>> 18) % 4294967296) &&& 16383

/-! ### Prefix-match length (fastyz.c lines 122-156) -/

/-- Byte-by-byte comparison loop shared by both `compare_match` variants:
advance while `q < limit` and the bytes agree, return the advance count. -/
def cmLoop (x : List Nat) (limit p q : Nat) : Nat :=
  if h : q < limit ∧ x.getD p 0 = x.getD q 0 then cmLoop x limit (p + 1) (q + 1) + 1
  else 0
termination_by limit - q
decreasing_by omega

/-- The `YAZ0_ARCH64` variant of `compare_match`: compare one 4-byte word
first, then fall into the byte loop. -/
def compare_match (x : List Nat) (p q limit : Nat) : Nat :=
  if read_u32 x p = read_u32 x q then 4 + cmLoop x limit (p + 4) (q + 4)
  else cmLoop x limit p q

/-- The portable (`#else`) variant of `compare_match`: the plain
byte-by-byte loop. -/
def compare_match_bytewise (x : List Nat) (p q limit : Nat) : Nat :=
  cmLoop x limit p q

/-! ### Yaz0 writer state (fastyz.c lines 215-358) -/

/-- Writer state `yaz0_writer_t`: output written so far (past the header),
the index of the current flag byte, and the current bit mask. -/
structure Yaz0Writer where
  out : List Nat
  flagp : Nat
  mask : Nat
deriving DecidableEq, Repr

/-- `writer_new_group`: reserve a zero flag byte, reset the mask. -/
def writer_new_group (w : Yaz0Writer) : Yaz0Writer :=
  ⟨w.out ++ [0], w.out.length, 128⟩

/-- Count trailing zeros (`__builtin_ctz`, defined only for nonzero input). -/
def ctz (n : Nat) : Nat :=
  if n = 0 then 0
  else if n % 2 = 1 then 0
  else ctz (n / 2) + 1
decreasing_by omega

/-- The flag-bit loop of `writer_emit_literals`:
`for i < n { *flagp |= mask; mask >>= 1 }`. -/
def setFlagBits (w : Yaz0Writer) : Nat → Yaz0Writer
  | 0 => w
  | n + 1 =>
    setFlagBits ⟨w.out.set w.flagp (w.out.getD w.flagp 0 ||| w.mask), w.flagp, w.mask >>> 1⟩ n

/-- Phases 2 and 3 of `writer_emit_literals`: emit full groups of 8
literals, then the remainder. -/
def emitLitsRest (w : Yaz0Writer) (count : Nat) (x : List Nat) (src : Nat) : Yaz0Writer :=
  if h8 : count ≥ 8 then
    let w1 : Yaz0Writer := ⟨(w.out.set w.flagp 255) ++ (x.drop src).take 8, w.flagp, w.mask⟩
    emitLitsRest (writer_new_group w1) (count - 8) x (src + 8)
  else if count ≠ 0 then
    ⟨(w.out.set w.flagp ((w.out.getD w.flagp 0 ||| 255 <<< (8 - count)) % 256)) ++
        (x.drop src).take count,
      w.flagp, 128 >>> count⟩
  else w
termination_by count
decreasing_by omega

/-- `writer_emit_literals`: emit `count` literal bytes taken from `x`
starting at index `src`. -/
def writer_emit_literals (w : Yaz0Writer) (count : Nat) (x : List Nat) (src : Nat) : Yaz0Writer :=
  if count = 0 then w
  else if w.mask ≠ 128 then
    let room := ctz w.mask + 1
    if count < room then
      let w1 := setFlagBits w count
      ⟨w1.out ++ (x.drop src).take count, w1.flagp, w1.mask⟩
    else
      let w1 := setFlagBits w room
      let w2 : Yaz0Writer := ⟨w1.out ++ (x.drop src).take room, w1.flagp, w1.mask⟩
      emitLitsRest (writer_new_group w2) (count - room) x (src + room)
  else emitLitsRest w count x src

/-- Chunk size chosen by the oversized-match loop of `writer_emit_match`:
`len - MAX_LEN < SHORT_FORM_MIN ? MAX_LEN - 2 : MAX_LEN`. -/
def matchChunkSize (len : Nat) : Nat :=
  if len - 273 < 3 then 271 else 273

/-- The `while (len > MAX_LEN)` loop of `writer_emit_match`; `d1` is the
already-decremented distance. Returns the writer and the remaining length. -/
def emitMatchChunks (w : Yaz0Writer) (len d1 : Nat) : Yaz0Writer × Nat :=
  if h : len > 273 then
    let chunk := matchChunkSize len
    let w1 : Yaz0Writer :=
      ⟨w.out ++ [(d1 >>> 8) &&& 15, d1 &&& 255, (chunk - 18) % 256], w.flagp, w.mask >>> 1⟩
    let w2 := if w1.mask = 0 then writer_new_group w1 else w1
    emitMatchChunks w2 (len - chunk) d1
  else (w, len)
termination_by len
decreasing_by
  simp only [matchChunkSize]
  split <;> omega

/-- `writer_emit_match`: emit one match of the given length and distance,
splitting lengths above 273 into chunks. The initial `distance--` is the
`uint32_t` decrement. -/
def writer_emit_match (w : Yaz0Writer) (len distance : Nat) : Yaz0Writer :=
  let d1 := (distance + 4294967295) % 4294967296
  let r := emitMatchChunks w len d1
  let w1 := r.1
  let len1 := r.2
  let w2 : Yaz0Writer :=
    if len1 < 18 then
      let code := ((((len1 + 4294967294) % 4294967296) <<< 12) % 4294967296 ||| d1) % 65536
      ⟨w1.out ++ [code >>> 8, code &&& 255], w1.flagp, w1.mask⟩
    else
      ⟨w1.out ++ [(d1 >>> 8) &&& 15, d1 &&& 255, (len1 - 18) % 256], w1.flagp, w1.mask⟩
  let w3 : Yaz0Writer := ⟨w2.out, w2.flagp, w2.mask >>> 1⟩
  if w3.mask = 0 then writer_new_group w3 else w3

/-! ### Compression driver (fastyz.c lines 364-453) -/

/-- The inner `do { ... } while (seq != cmp)` scan of `yaz0_compress`.
Returns the updated hash table, the cursor, and on a hit the candidate
offset together with the computed distance. -/
def findMatch (x : List Nat) (iplimit : Nat) (htab : Nat → Nat) (ip : Nat) :
    (Nat → Nat) × Nat × Option (Nat × Nat) :=
  let seq := read_u32 x ip &&& 16777215
  let h := compute_hash seq
  let refo := htab h
  let htab1 : Nat → Nat := fun i => if i = h then ip else htab i
  let distance := (((ip : Int) - (refo : Int)) % 4294967296).toNat
  let cmp := if distance < 4096 then read_u32 x refo &&& 16777215 else 16777216
  if ip ≥ iplimit then (htab1, ip, none)
  else if seq ≠ cmp then findMatch x iplimit htab1 (ip + 1)
  else (htab1, ip + 1, some (refo, distance))
termination_by iplimit - ip
decreasing_by omega

/-- The cursor returned by `findMatch` never moves backwards. -/
theorem findMatch_ip_le (x : List Nat) (iplimit : Nat) (htab : Nat → Nat) (ip : Nat) :
    ip ≤ (findMatch x iplimit htab ip).2.1 := by
  generalize hn : iplimit - ip = n
  induction n using Nat.strong_induction_on generalizing htab ip with
  | _ n ih =>
    rw [findMatch]
    by_cases hge : ip ≥ iplimit
    · rw [if_pos hge]
    · rw [if_neg hge]
      split <;> split <;>
        first
        | exact Nat.le_succ ip
        | (have h1 := ih (iplimit - (ip + 1)) (by omega) (fun i =>
            if i = compute_hash (read_u32 x ip &&& 16777215) then ip else htab i) (ip + 1) rfl
           omega)

/-- When `findMatch` reports a hit, the cursor has advanced at least once. -/
theorem findMatch_some_ge (x : List Nat) (iplimit : Nat) (htab : Nat → Nat) (ip : Nat)
    (r : Nat × Nat) (h : (findMatch x iplimit htab ip).2.2 = some r) :
    ip + 1 ≤ (findMatch x iplimit htab ip).2.1 := by
  generalize hn : iplimit - ip = n
  induction n using Nat.strong_induction_on generalizing htab ip with
  | _ n ih =>
    rw [findMatch] at h ⊢
    by_cases hge : ip ≥ iplimit
    · rw [if_pos hge] at h
      simp at h
    · rw [if_neg hge] at h ⊢
      revert h
      split <;> split <;> intro h <;>
        first
        | exact Nat.le_refl (ip + 1)
        | (have h1 := findMatch_ip_le x iplimit (fun i =>
            if i = compute_hash (read_u32 x ip &&& 16777215) then ip else htab i) (ip + 1)
           omega)

/-- The main compression loop of `yaz0_compress` (lines 399-446). Returns
the final writer state and the final `anchor`. -/
def compressLoop (x : List Nat) (ipbound iplimit : Nat) (htab : Nat → Nat)
    (ip anchor : Nat) (w : Yaz0Writer) : Yaz0Writer × Nat :=
  if hip : ip < iplimit then
    let fm := findMatch x iplimit htab ip
    match hfm : fm.2.2 with
    | none => (w, anchor)
    | some (refo, distance) =>
      let htab1 := fm.1
      let ip1 := fm.2.1
      if ip1 ≥ iplimit then (w, anchor)
      else
        let ipm := ip1 - 1
        let w1 := if anchor < ipm then writer_emit_literals w (ipm - anchor) x anchor else w
        let len := compare_match x (refo + 3) (ipm + 3) ipbound + 3
        let w2 := writer_emit_match w1 len distance
        let ip2 := ipm + len
        let seq2 := read_u32 x ip2
        let h1 := compute_hash (seq2 &&& 16777215)
        let htab2 : Nat → Nat := fun i => if i = h1 then ip2 else htab1 i
        let h2 := compute_hash (seq2 >>> 8)
        let htab3 : Nat → Nat := fun i => if i = h2 then ip2 + 1 else htab2 i
        compressLoop x ipbound iplimit htab3 (ip2 + 2) ip2 w2
  else (w, anchor)
termination_by iplimit - ip
decreasing_by
  have h1 := findMatch_some_ge x iplimit htab ip _ hfm
  omega

/-- `yaz0_compress`: write the 16-byte header, run the scan loop, flush the
tail literals. The returned `int` of the C function is the length of the
list produced here. -/
def yaz0_compress (x : List Nat) : List Nat :=
  let length := x.length
  let header := [89, 97, 122, 48,
    (length >>> 24) &&& 255, (length >>> 16) &&& 255, (length >>> 8) &&& 255, length &&& 255,
    0, 0, 0, 0, 0, 0, 0, 0]
  let w0 := writer_new_group ⟨[], 0, 0⟩
  let res := compressLoop x (length - 4) (length - 13) (fun _ => 0) 2 0 w0
  let w1 := writer_emit_literals res.1 (length - res.2) x res.2
  header ++ w1.out

/-! ### Decompression (fastyz.c lines 459-573) -/

/-- `yaz0_is_valid`: magic check. -/
def yaz0_is_valid (y : List Nat) : Bool :=
  y.getD 0 0 == 89 && y.getD 1 0 == 97 && y.getD 2 0 == 122 && y.getD 3 0 == 48

/-- `yaz0_get_decompressed_size`: big-endian size in bytes 4..7, or 0 on
a magic mismatch. -/
def yaz0_get_decompressed_size (y : List Nat) : Nat :=
  if yaz0_is_valid y then
    (y.getD 4 0) <<< 24 ||| (y.getD 5 0) <<< 16 ||| (y.getD 6 0) <<< 8 ||| y.getD 7 0
  else 0

/-- Decoder state: source cursor into the whole compressed buffer, the
bytes written so far, the flag register, and the remaining bit count. -/
structure DecState where
  src : Nat
  dst : List Nat
  flag : Nat
  bits : Nat
deriving DecidableEq, Repr

/-- The byte-at-a-time overlapping back-reference copy of the decoder:
`for i < len { *dst++ = *ref++ }` with `ref = dst - distance`. -/
def seqCopy (dst : List Nat) (distance : Nat) : Nat → List Nat
  | 0 => dst
  | n + 1 => seqCopy (dst ++ [dst.getD (dst.length - distance) 0]) distance n

/-- Back-reference validation and copy of the decoder (lines 532-541):
reject a reference reaching before the output start or past the buffer
end, otherwise perform the overlapping copy and consume the flag bit. -/
def decodeCopy (maxout : Nat) (dst0 : List Nat) (flag bits distance len src2 : Nat) :
    Option DecState :=
  if dst0.length < distance then none
  else if dst0.length + len > maxout then none
  else some ⟨src2, seqCopy dst0 distance len, (flag <<< 1) % 256, bits - 1⟩

/-- Process one token of the decompression loop, after the flag byte (if
any) has been fetched: a literal when the top flag bit is set, otherwise a
2- or 3-byte match code with its range checks and the back-reference copy.
`none` is the `return 0` of the C code. -/
def decodeTok (y : List Nat) (length maxout : Nat) (dst0 : List Nat)
    (flag bits src : Nat) : Option DecState :=
  if flag &&& 128 ≠ 0 then
    if src ≥ length ∨ dst0.length ≥ maxout then none
    else some ⟨src + 1, dst0 ++ [y.getD src 0], (flag <<< 1) % 256, bits - 1⟩
  else
    if src + 2 > length then none
    else
      let byte1 := y.getD src 0
      let byte2 := y.getD (src + 1) 0
      let distance := ((byte1 &&& 15) <<< 8 ||| byte2) + 1
      let lencode := byte1 >>> 4
      if lencode = 0 then
        if src + 2 ≥ length then none
        else decodeCopy maxout dst0 flag bits distance (y.getD (src + 2) 0 + 18) (src + 3)
      else decodeCopy maxout dst0 flag bits distance (lencode + 2) (src + 2)

/-- One iteration of the decompression loop: fetch a flag byte when all
bits are consumed, then process one token. -/
def decodeStep (y : List Nat) (length maxout : Nat) (s : DecState) : Option DecState :=
  if s.bits = 0 then
    if s.src ≥ length then none
    else decodeTok y length maxout s.dst (y.getD s.src 0) 8 (s.src + 1)
  else decodeTok y length maxout s.dst s.flag s.bits s.src

/-- Length of a sequential back-reference copy. -/
theorem seqCopy_length (dst : List Nat) (distance n : Nat) :
    (seqCopy dst distance n).length = dst.length + n := by
  induction n generalizing dst with
  | zero => rfl
  | succ n ih =>
    rw [seqCopy, ih]
    simp only [List.length_append, List.length_cons, List.length_nil]
    omega

/-- A successful `decodeCopy` extends the output by exactly `len`. -/
theorem decodeCopy_some (maxout : Nat) (dst0 : List Nat) (flag bits distance len src2 : Nat)
    (s2 : DecState) (h : decodeCopy maxout dst0 flag bits distance len src2 = some s2) :
    s2.dst.length = dst0.length + len ∧ distance ≤ dst0.length ∧
      dst0.length + len ≤ maxout := by
  unfold decodeCopy at h
  split at h
  · simp at h
  · split at h
    · simp at h
    · rw [Option.some_inj] at h
      subst h
      exact ⟨seqCopy_length dst0 distance len, by omega, by omega⟩

/-- A successful `decodeTok` lengthens the output: by exactly one byte for
a literal, by at least three for a match. -/
theorem decodeTok_progress (y : List Nat) (length maxout : Nat) (dst0 : List Nat)
    (flag bits src : Nat) (s2 : DecState)
    (h : decodeTok y length maxout dst0 flag bits src = some s2) :
    dst0.length + 1 ≤ s2.dst.length ∧
      (s2.dst.length = dst0.length + 1 ∨ dst0.length + 3 ≤ s2.dst.length) := by
  simp only [decodeTok] at h
  split at h
  · split at h
    · simp at h
    · rw [Option.some_inj] at h
      subst h
      simp
  · split at h
    · simp at h
    · split at h
      · split at h
        · simp at h
        · have h1 := decodeCopy_some _ _ _ _ _ _ _ _ h
          omega
      · rename_i hlc
        have h1 := decodeCopy_some _ _ _ _ _ _ _ _ h
        have h2 : 1 ≤ y.getD src 0 >>> 4 := Nat.one_le_iff_ne_zero.mpr hlc
        omega

/-- Every successful `decodeStep` strictly lengthens the output: by exactly
one byte for a literal, by at least three for a match. -/
theorem decodeStep_progress (y : List Nat) (length maxout : Nat) (s s2 : DecState)
    (h : decodeStep y length maxout s = some s2) :
    s.dst.length + 1 ≤ s2.dst.length ∧
      (s2.dst.length = s.dst.length + 1 ∨ s.dst.length + 3 ≤ s2.dst.length) := by
  unfold decodeStep at h
  revert h
  split
  · split
    · exact fun h => absurd h (by simp)
    · exact fun h => decodeTok_progress _ _ _ _ _ _ _ _ h
  · exact fun h => decodeTok_progress _ _ _ _ _ _ _ _ h

/-- The decompression `while` loop. Termination is by the strict progress
of `decodeStep` towards the declared size `D`. -/
def decodeLoop (y : List Nat) (length maxout D : Nat) (s : DecState) : Option (List Nat) :=
  if s.dst.length < D then
    match hs : decodeStep y length maxout s with
    | none => none
    | some s2 => decodeLoop y length maxout D s2
  else some s.dst
termination_by D - s.dst.length
decreasing_by
  have h1 := decodeStep_progress y length maxout s s2 hs
  omega

/-- Conversion of a `uint32_t` value to `int`, as in the C comparison
`(int)decompressed_size > maxout`. -/
def int32ofUInt32 (n : Nat) : Int :=
  if n < 2147483648 then (n : Int) else (n : Int) - 4294967296

/-- `yaz0_decompress`: header preflight then the decode loop. `none` is
the C return value 0; `some out` is a return of `out.length` with the
bytes `out` written to the output buffer. -/
def yaz0_decompress (y : List Nat) (length maxout : Nat) : Option (List Nat) :=
  if length < 16 then none
  else
    let D := yaz0_get_decompressed_size y
    if D = 0 then none
    else if int32ofUInt32 D > (maxout : Int) then none
    else decodeLoop y length maxout D ⟨16, [], 0, 0⟩

/-- The `int` return value of `yaz0_decompress`. -/
def yaz0_decompress_ret (y : List Nat) (length maxout : Nat) : Nat :=
  match yaz0_decompress y length maxout with
  | none => 0
  | some out => out.length

/-- Unfolded form of `yaz0_decompress` (the `let` is transparent). -/
theorem yaz0_decompress_eq (y : List Nat) (length maxout : Nat) :
    yaz0_decompress y length maxout =
      if length < 16 then none
      else if yaz0_get_decompressed_size y = 0 then none
      else if int32ofUInt32 (yaz0_get_decompressed_size y) > (maxout : Int) then none
      else decodeLoop y length maxout (yaz0_get_decompressed_size y) ⟨16, [], 0, 0⟩ :=
  rfl

/-! ### Byte arithmetic helpers -/

theorem and_two_pow_sub_one (n k : Nat) : n &&& (2 ^ k - 1) = n % 2 ^ k :=
  Nat.and_pow_two_sub_one_eq_mod n k

theorem and_255 (n : Nat) : n &&& 255 = n % 256 := by
  simpa using and_two_pow_sub_one n 8

theorem and_15 (n : Nat) : n &&& 15 = n % 16 := by
  simpa using and_two_pow_sub_one n 4

theorem and_16383 (n : Nat) : n &&& 16383 = n % 16384 := by
  simpa using and_two_pow_sub_one n 14

theorem and_mask24 (n : Nat) : n &&& 16777215 = n % 16777216 := by
  simpa using and_two_pow_sub_one n 24

/-- Bitwise or is addition when the low `k` bits of `b` are clear and `a`
fits in them. -/
theorem lor_eq_add (k a b : Nat) (ha : a < 2 ^ k) (hb : 2 ^ k ∣ b) :
    b ||| a = b + a := by
  obtain ⟨c, rfl⟩ := hb
  apply Nat.eq_of_testBit_eq
  intro i
  rw [Nat.testBit_lor]
  rcases Nat.lt_or_ge i k with hik | hik
  · have hdiv : 2 ^ k * c / 2 ^ i = 2 ^ (k - i) * c := by
      rw [show (2 : Nat) ^ k = 2 ^ i * 2 ^ (k - i) by
          rw [← pow_add]
          congr 1
          omega,
        Nat.mul_assoc, Nat.mul_div_cancel_left _ (Nat.two_pow_pos i)]
    have hb : (2 ^ k * c).testBit i = false := by
      rw [Nat.testBit_to_div_mod, hdiv]
      simp only [decide_eq_false_iff_not]
      rw [show k - i = 1 + (k - i - 1) by omega, pow_add]
      have hassoc : 2 ^ 1 * 2 ^ (k - i - 1) * c = 2 * (2 ^ (k - i - 1) * c) := by ring
      rw [hassoc]
      omega
    have hadd : (2 ^ k * c + a).testBit i = a.testBit i := by
      have hmm := Nat.testBit_mod_two_pow (2 ^ k * c + a) k i
      rw [Nat.add_mod, Nat.mul_mod_right, Nat.zero_add, Nat.mod_mod_of_dvd _ (dvd_refl _),
        Nat.mod_eq_of_lt ha] at hmm
      rw [hmm]
      simp [hik]
    rw [hadd, hb]
    simp
  · have ha2 : a.testBit i = false :=
      Nat.testBit_lt_two_pow (lt_of_lt_of_le ha (Nat.pow_le_pow_right (by omega) hik))
    have hdivq : (2 ^ k * c + a) / 2 ^ k = c := by
      rw [Nat.mul_add_div (Nat.two_pow_pos k), Nat.div_eq_of_lt ha]
      omega
    have hadd : (2 ^ k * c + a).testBit i = (2 ^ k * c).testBit i := by
      rw [Nat.testBit_to_div_mod, Nat.testBit_to_div_mod]
      have heq : (2 ^ k * c + a) / 2 ^ i = 2 ^ k * c / 2 ^ i := by
        rw [show i = k + (i - k) by omega, pow_add, ← Nat.div_div_eq_div_mul,
          ← Nat.div_div_eq_div_mul, hdivq, Nat.mul_div_cancel_left _ (Nat.two_pow_pos k)]
      rw [heq]
    rw [hadd, ha2]
    simp

/-- Every `getD` lookup of a byte list is a byte (the default 0 included). -/
theorem getD_lt_256 (x : List Nat) (hx : ∀ b ∈ x, b < 256) (i : Nat) :
    x.getD i 0 < 256 := by
  rcases Nat.lt_or_ge i x.length with hi | hi
  · rw [List.getD_eq_getElem x 0 hi]
    exact hx _ (List.getElem_mem hi)
  · rw [List.getD_eq_default _ _ hi]
    omega

/-- Value of a little-endian 32-bit load on a byte list. -/
theorem read_u32_eq (x : List Nat) (hx : ∀ b ∈ x, b < 256) (p : Nat) :
    read_u32 x p =
      x.getD p 0 + 256 * x.getD (p + 1) 0 + 65536 * x.getD (p + 2) 0 +
        16777216 * x.getD (p + 3) 0 := by
  have h0 := getD_lt_256 x hx p
  have h1 := getD_lt_256 x hx (p + 1)
  have h2 := getD_lt_256 x hx (p + 2)
  have h3 := getD_lt_256 x hx (p + 3)
  unfold read_u32
  rw [Nat.shiftLeft_eq, Nat.shiftLeft_eq, Nat.shiftLeft_eq]
  rw [lor_eq_add 24 (x.getD (p + 2) 0 * 2 ^ 16) (x.getD (p + 3) 0 * 2 ^ 24)
    (by omega) ⟨x.getD (p + 3) 0, by ring⟩]
  rw [lor_eq_add 16 (x.getD (p + 1) 0 * 2 ^ 8)
    (x.getD (p + 3) 0 * 2 ^ 24 + x.getD (p + 2) 0 * 2 ^ 16)
    (by omega) ⟨x.getD (p + 3) 0 * 2 ^ 8 + x.getD (p + 2) 0, by ring⟩]
  rw [lor_eq_add 8 (x.getD p 0)
    (x.getD (p + 3) 0 * 2 ^ 24 + x.getD (p + 2) 0 * 2 ^ 16 + x.getD (p + 1) 0 * 2 ^ 8)
    (by omega) ⟨x.getD (p + 3) 0 * 2 ^ 16 + x.getD (p + 2) 0 * 2 ^ 8 + x.getD (p + 1) 0, by ring⟩]
  ring

/-- Equal 32-bit loads on a byte list mean the four underlying byte pairs
are equal. -/
theorem read_u32_inj (x : List Nat) (hx : ∀ b ∈ x, b < 256) (p q : Nat)
    (h : read_u32 x p = read_u32 x q) :
    ∀ i < 4, x.getD (p + i) 0 = x.getD (q + i) 0 := by
  rw [read_u32_eq x hx p, read_u32_eq x hx q] at h
  have h0 := getD_lt_256 x hx p
  have h1 := getD_lt_256 x hx (p + 1)
  have h2 := getD_lt_256 x hx (p + 2)
  have h3 := getD_lt_256 x hx (p + 3)
  have k0 := getD_lt_256 x hx q
  have k1 := getD_lt_256 x hx (q + 1)
  have k2 := getD_lt_256 x hx (q + 2)
  have k3 := getD_lt_256 x hx (q + 3)
  intro i hi
  interval_cases i <;> (try simp only [Nat.add_zero]) <;> omega

/-- One positive step of the byte-comparison loop. -/
theorem cmLoop_step_pos (x : List Nat) (limit p q : Nat) (h1 : q < limit)
    (h2 : x.getD p 0 = x.getD q 0) :
    cmLoop x limit p q = cmLoop x limit (p + 1) (q + 1) + 1 := by
  rw [cmLoop]
  rw [dif_pos ⟨h1, h2⟩]

/-- The stopping case of the byte-comparison loop. -/
theorem cmLoop_step_neg (x : List Nat) (limit p q : Nat)
    (h : ¬(q < limit ∧ x.getD p 0 = x.getD q 0)) :
    cmLoop x limit p q = 0 := by
  rw [cmLoop]
  rw [dif_neg h]

/-- C4 (amended): on byte data, whenever the limit leaves at least 4 bytes
of room after `q`, the word-at-a-time `compare_match` returns exactly the
byte-by-byte result, in particular never more. The encoder only calls it
with `limit - q ≥ 7`. -/
theorem compare_match_le_bytewise (x : List Nat) (p q limit : Nat)
    (hx : ∀ b ∈ x, b < 256) (hq : q + 4 ≤ limit) :
    compare_match x p q limit = compare_match_bytewise x p q limit ∧
      compare_match x p q limit ≤ compare_match_bytewise x p q limit := by
  have hmain : compare_match x p q limit = compare_match_bytewise x p q limit := by
    unfold compare_match compare_match_bytewise
    split
    · rename_i heq
      have hb := read_u32_inj x hx p q heq
      have e0 := hb 0 (by omega)
      have e1 := hb 1 (by omega)
      have e2 := hb 2 (by omega)
      have e3 := hb 3 (by omega)
      simp only [Nat.add_zero] at e0
      rw [cmLoop_step_pos x limit p q (by omega) e0,
        cmLoop_step_pos x limit (p + 1) (q + 1) (by omega) e1,
        cmLoop_step_pos x limit (p + 2) (q + 2) (by omega) e2,
        cmLoop_step_pos x limit (p + 3) (q + 3) (by omega) e3]
      have ha : p + 3 + 1 = p + 4 := by omega
      have hb : q + 3 + 1 = q + 4 := by omega
      rw [ha, hb]
      omega
    · rfl
  exact ⟨hmain, le_of_eq hmain⟩

/-- C4 (counterexample): with four equal bytes but `qlimit = q + 2`, the
word-at-a-time `compare_match` returns 4 while the byte-by-byte loop
returns 2, refuting the claim as universally stated. -/
theorem compare_match_exceeds_bytewise_cex :
    compare_match [7, 7, 7, 7, 7, 7, 7, 7] 0 0 2 = 4 ∧
      compare_match_bytewise [7, 7, 7, 7, 7, 7, 7, 7] 0 0 2 = 2 ∧
      ¬compare_match [7, 7, 7, 7, 7, 7, 7, 7] 0 0 2 ≤
        compare_match_bytewise [7, 7, 7, 7, 7, 7, 7, 7] 0 0 2 := by
  have h1 : compare_match [7, 7, 7, 7, 7, 7, 7, 7] 0 0 2 = 4 := by
    unfold compare_match
    rw [if_pos rfl, cmLoop_step_neg _ _ _ _ (fun hc => by omega)]
  have h2 : compare_match_bytewise [7, 7, 7, 7, 7, 7, 7, 7] 0 0 2 = 2 := by
    unfold compare_match_bytewise
    rw [cmLoop_step_pos _ _ _ _ (by omega) rfl, cmLoop_step_pos _ _ _ _ (by omega) rfl,
      cmLoop_step_neg _ _ _ _ (fun hc => by omega)]
  exact ⟨h1, h2, by omega⟩

/-! ### The literal emitter (claim C5) -/

theorem ctz_two_pow (k : Nat) : ctz (2 ^ k) = k := by
  induction k with
  | zero => simp [ctz]
  | succ k ih =>
    rw [ctz]
    have h1 : 2 ^ (k + 1) ≠ 0 := by positivity
    have h2 : 2 ^ (k + 1) % 2 = 0 := by
      rw [pow_succ]
      exact Nat.mul_mod_left _ 2
    have h3 : 2 ^ (k + 1) / 2 = 2 ^ k := by
      rw [pow_succ]
      exact Nat.mul_div_cancel _ (by omega)
    rw [if_neg h1, if_neg (by omega), h3, ih]

theorem shift128 (r : Nat) (h : r ≤ 7) : 128 >>> r = 2 ^ (7 - r) := by
  interval_cases r <;> rfl

theorem ctz_shift128 (r : Nat) (h : r ≤ 7) : ctz (128 >>> r) = 7 - r := by
  rw [shift128 r h, ctz_two_pow]

/-- The flag-bit loop does not move the flag pointer, shifts the mask once
per bit, and does not change the output length. -/
theorem setFlagBits_spec (n : Nat) (w : Yaz0Writer) :
    (setFlagBits w n).flagp = w.flagp ∧ (setFlagBits w n).mask = w.mask >>> n ∧
      (setFlagBits w n).out.length = w.out.length := by
  induction n generalizing w with
  | zero => exact ⟨rfl, rfl, rfl⟩
  | succ n ih =>
    rw [setFlagBits]
    obtain ⟨ha, hb, hc⟩ := ih ⟨w.out.set w.flagp (w.out.getD w.flagp 0 ||| w.mask),
      w.flagp, w.mask >>> 1⟩
    refine ⟨ha, ?_, by simpa using hc⟩
    rw [hb]
    rw [show w.mask >>> 1 >>> n = w.mask >>> (1 + n) from (Nat.shiftRight_add w.mask 1 n).symm]
    congr 1
    omega

/-- C5 (amended): a call to `writer_emit_literals` with `n ≥ 1` literals
while `mask = 0x80 >> r` (a partially used group, `1 ≤ r ≤ 7`, so
`room = trailing_zero_count(mask) + 1 = 8 - r`) sets the next `n` flag
bits and copies `n` source bytes without starting a new group whenever
`n < room`; as soon as `n ≥ room` it fills the `room` remaining bits and
starts a new group (the code tests `count < room`, not `count ≤ room`). -/
theorem writer_emit_literals_partial_group (w : Yaz0Writer) (n r src : Nat) (x : List Nat)
    (hmask : w.mask = 128 >>> r) (hr1 : 1 ≤ r) (hr7 : r ≤ 7) (hn1 : 1 ≤ n) :
    ctz w.mask + 1 = 8 - r ∧
      (n < 8 - r →
        writer_emit_literals w n x src =
          ⟨(setFlagBits w n).out ++ (x.drop src).take n, w.flagp, w.mask >>> n⟩) ∧
      (8 - r ≤ n →
        writer_emit_literals w n x src =
          emitLitsRest
            (writer_new_group
              ⟨(setFlagBits w (8 - r)).out ++ (x.drop src).take (8 - r), w.flagp,
                w.mask >>> (8 - r)⟩)
            (n - (8 - r)) x (src + (8 - r))) := by
  have hroom : ctz w.mask + 1 = 8 - r := by
    rw [hmask, ctz_shift128 r hr7]
    omega
  have hm128 : w.mask ≠ 128 := by
    rw [hmask, shift128 r hr7]
    have : (2 : Nat) ^ (7 - r) ≤ 2 ^ 6 := Nat.pow_le_pow_right (by omega) (by omega)
    omega
  obtain ⟨hfp, hmk, _⟩ := setFlagBits_spec n w
  obtain ⟨hfp2, hmk2, _⟩ := setFlagBits_spec (8 - r) w
  refine ⟨hroom, ?_, ?_⟩
  · intro hlt
    rw [writer_emit_literals, if_neg (by omega), if_pos hm128, if_pos (by omega)]
    simp only [hfp, hmk]
  · intro hge
    rw [writer_emit_literals, if_neg (by omega), if_pos hm128, if_neg (by omega)]
    simp only [hroom, hfp2, hmk2]

/-- C5 (counterexample): with `mask = 0x01` (so `room = 1`) a call with
`n = 1 = room` does start a new group — the output grows by the literal
byte plus a fresh flag byte and the flag pointer moves — refuting the
claim that a new group is started only when `n > room`. -/
theorem writer_emit_literals_room_boundary_cex :
    (⟨[254, 5, 5, 5, 5, 5, 5, 5], 0, 1⟩ : Yaz0Writer).mask ≠ 128 ∧
      (1 : Nat) = ctz (⟨[254, 5, 5, 5, 5, 5, 5, 5], 0, 1⟩ : Yaz0Writer).mask + 1 ∧
      writer_emit_literals ⟨[254, 5, 5, 5, 5, 5, 5, 5], 0, 1⟩ 1 (List.replicate 10 5) 7 =
        ⟨[255, 5, 5, 5, 5, 5, 5, 5, 5, 0], 9, 128⟩ ∧
      (writer_emit_literals ⟨[254, 5, 5, 5, 5, 5, 5, 5], 0, 1⟩ 1
          (List.replicate 10 5) 7).out.length ≠
        (⟨[254, 5, 5, 5, 5, 5, 5, 5], 0, 1⟩ : Yaz0Writer).out.length + 1 ∧
      (writer_emit_literals ⟨[254, 5, 5, 5, 5, 5, 5, 5], 0, 1⟩ 1
          (List.replicate 10 5) 7).flagp ≠
        (⟨[254, 5, 5, 5, 5, 5, 5, 5], 0, 1⟩ : Yaz0Writer).flagp := by
  have hstep :
      writer_emit_literals ⟨[254, 5, 5, 5, 5, 5, 5, 5], 0, 1⟩ 1 (List.replicate 10 5) 7 =
        ⟨[255, 5, 5, 5, 5, 5, 5, 5, 5, 0], 9, 128⟩ := by
    simp [writer_emit_literals, emitLitsRest, writer_new_group, ctz, setFlagBits]
  refine ⟨by decide, by simp [ctz], hstep, ?_, ?_⟩
  · rw [hstep]
    decide
  · rw [hstep]
    decide

/-- Witness for `writer_emit_literals_partial_group` at a concrete state
(`mask = 8 = 0x80 >> 4`, two literals into four bits of room). -/
theorem writer_emit_literals_partial_group_witness :
    ctz (⟨[240, 9, 9, 9, 9], 0, 8⟩ : Yaz0Writer).mask + 1 = 8 - 4 ∧
      writer_emit_literals ⟨[240, 9, 9, 9, 9], 0, 8⟩ 2 [1, 2, 3] 0 =
        ⟨(setFlagBits ⟨[240, 9, 9, 9, 9], 0, 8⟩ 2).out ++ (([1, 2, 3] : List Nat).drop 0).take 2,
          0, 8 >>> 2⟩ := by
  have h := writer_emit_literals_partial_group ⟨[240, 9, 9, 9, 9], 0, 8⟩ 2 4 0 [1, 2, 3]
    (by decide) (by decide) (by decide) (by decide)
  exact ⟨h.1, h.2.1 (by decide)⟩

/-! ### Oversized-match chunking (claim C6) -/

/-- The sequence of chunk lengths produced by `writer_emit_match` for a
match of length `len`: the loop chunks while `len > 273`, then the final
piece. -/
def matchChunks (len : Nat) : List Nat :=
  if h : len > 273 then matchChunkSize len :: matchChunks (len - matchChunkSize len)
  else [len]
termination_by len
decreasing_by
  simp only [matchChunkSize]
  split <;> omega

theorem matchChunkSize_cases (len : Nat) :
    matchChunkSize len = 271 ∨ matchChunkSize len = 273 := by
  unfold matchChunkSize
  split
  · exact Or.inl rfl
  · exact Or.inr rfl

theorem matchChunks_sum (len : Nat) : (matchChunks len).sum = len := by
  induction len using Nat.strong_induction_on with
  | _ len ih =>
    rw [matchChunks]
    split
    · rename_i hgt
      have hcs := matchChunkSize_cases len
      have hrec := ih (len - matchChunkSize len) (by rcases hcs with h | h <;> omega)
      simp only [List.sum_cons, hrec]
      rcases hcs with h | h <;> omega
    · simp

theorem matchChunks_mem (len : Nat) (h3 : 3 ≤ len) :
    ∀ c ∈ matchChunks len, 3 ≤ c ∧ c ≤ 273 := by
  induction len using Nat.strong_induction_on with
  | _ len ih =>
    intro c hc
    rw [matchChunks] at hc
    revert hc
    split
    · rename_i hgt
      intro hc
      rcases List.mem_cons.mp hc with hceq | hc
      · rcases matchChunkSize_cases len with h | h <;> omega
      · have hcs := matchChunkSize_cases len
        refine ih (len - matchChunkSize len) ?_ ?_ c hc
        · rcases hcs with h | h <;> omega
        · unfold matchChunkSize
          split <;> omega
    · intro hc
      rcases List.mem_cons.mp hc with hceq | hc
      · omega
      · simp at hc

theorem matchChunks_dropLast (len : Nat) :
    ∀ c ∈ (matchChunks len).dropLast, c = 271 ∨ c = 273 := by
  induction len using Nat.strong_induction_on with
  | _ len ih =>
    intro c hc
    rw [matchChunks] at hc
    revert hc
    split
    · rename_i hgt
      have hne : matchChunks (len - matchChunkSize len) ≠ [] := by
        rw [matchChunks]
        split <;> simp
      rw [List.dropLast_cons_of_ne_nil hne]
      intro hc
      rcases List.mem_cons.mp hc with hceq | hc
      · rw [hceq]
        exact matchChunkSize_cases len
      · refine ih (len - matchChunkSize len) ?_ c hc
        rcases matchChunkSize_cases len with h | h <;> omega
    · simp

/-- The final piece left over after the chunking loop is the last entry of
`matchChunks`, and the writer output of the loop is untouched past the
chunk codes: here we track only the remaining length. -/
theorem emitMatchChunks_final (w : Yaz0Writer) (len d1 : Nat) :
    matchChunks len = (matchChunks len).dropLast ++ [(emitMatchChunks w len d1).2] := by
  induction len using Nat.strong_induction_on generalizing w with
  | _ len ih =>
    rw [matchChunks, emitMatchChunks]
    split
    · rename_i hgt
      have hcs := matchChunkSize_cases len
      have hrec := ih (len - matchChunkSize len) (by rcases hcs with h | h <;> omega)
      have hne : matchChunks (len - matchChunkSize len) ≠ [] := by
        rw [matchChunks]
        split <;> simp
      rw [List.dropLast_cons_of_ne_nil hne]
      simp only [List.cons_append]
      congr 1
      exact hrec _
    · simp

/-- C6: for a match of length above 273 with a representable distance,
every loop iteration of `writer_emit_match` takes a chunk of 271 exactly
when the tail `len - 273` would drop below the minimum match length 3 and
273 otherwise; hence every non-final chunk is 271 or 273 (so it lies in
the long-form range [18, 273] and its encoded byte fits), the chunks sum
back to `len`, and the final remaining piece — the second component of
`emitMatchChunks` — always lies in [3, 273], emitted short-form iff its
length is below 18. -/
theorem writer_emit_match_oversized (w : Yaz0Writer) (len distance d1 : Nat)
    (hlen : 273 < len) (hd : 1 ≤ distance) (hd2 : distance ≤ 4096)
    (hd1 : d1 = (distance + 4294967295) % 4294967296) :
    matchChunks len = matchChunkSize len :: matchChunks (len - matchChunkSize len) ∧
      matchChunkSize len = (if len - 273 < 3 then 271 else 273) ∧
      (∀ c ∈ (matchChunks len).dropLast, (c = 271 ∨ c = 273) ∧ 18 ≤ c ∧ c ≤ 273 ∧ c - 18 ≤ 255) ∧
      (matchChunks len).sum = len ∧
      (3 ≤ (emitMatchChunks w len d1).2 ∧ (emitMatchChunks w len d1).2 ≤ 273) ∧
      ((emitMatchChunks w len d1).2 < 18 →
        writer_emit_match w len distance =
          (let wc := (emitMatchChunks w len d1).1
           let len1 := (emitMatchChunks w len d1).2
           let code := ((((len1 + 4294967294) % 4294967296) <<< 12) % 4294967296 ||| d1) % 65536
           let w3 : Yaz0Writer := ⟨wc.out ++ [code >>> 8, code &&& 255], wc.flagp, wc.mask >>> 1⟩
           if w3.mask = 0 then writer_new_group w3 else w3)) ∧
      (18 ≤ (emitMatchChunks w len d1).2 →
        writer_emit_match w len distance =
          (let wc := (emitMatchChunks w len d1).1
           let len1 := (emitMatchChunks w len d1).2
           let w3 : Yaz0Writer :=
             ⟨wc.out ++ [(d1 >>> 8) &&& 15, d1 &&& 255, (len1 - 18) % 256], wc.flagp,
               wc.mask >>> 1⟩
           if w3.mask = 0 then writer_new_group w3 else w3)) := by
  have hfin := emitMatchChunks_final w len d1
  have hmem := matchChunks_mem len (by omega)
  have hlast : (emitMatchChunks w len d1).2 ∈ matchChunks len := by
    rw [hfin]
    simp
  refine ⟨?_, rfl, ?_, matchChunks_sum len, hmem _ hlast, ?_, ?_⟩
  · rw [matchChunks]
    rw [dif_pos hlen]
  · intro c hc
    have h1 := matchChunks_dropLast len c hc
    have h2 := hmem c (List.dropLast_subset _ hc)
    exact ⟨h1, by omega, by omega, by omega⟩
  · intro hshort
    rw [writer_emit_match]
    simp only [← hd1]
    rw [if_pos hshort]
  · intro hlong
    rw [writer_emit_match]
    simp only [← hd1]
    rw [if_neg (show ¬(emitMatchChunks w len d1).2 < 18 from by omega)]


/-- Witness for `writer_emit_match_oversized` at `len = 274`,
`distance = 5`. -/
theorem writer_emit_match_oversized_witness :
    matchChunks 274 = matchChunkSize 274 :: matchChunks (274 - matchChunkSize 274) ∧
      (matchChunks 274).sum = 274 ∧
      (3 ≤ (emitMatchChunks ⟨[0], 0, 128⟩ 274 4).2 ∧
        (emitMatchChunks ⟨[0], 0, 128⟩ 274 4).2 ≤ 273) := by
  have h := writer_emit_match_oversized ⟨[0], 0, 128⟩ 274 5 4
    (by norm_num) (by norm_num) (by norm_num) (by norm_num)
  exact ⟨h.1, h.2.2.2.1, h.2.2.2.2.1⟩

/-- Witness for `compare_match_le_bytewise` on a concrete byte region. -/
theorem compare_match_le_bytewise_witness :
    compare_match [1, 2, 3, 4, 5, 6, 7, 8] 0 0 8 =
        compare_match_bytewise [1, 2, 3, 4, 5, 6, 7, 8] 0 0 8 ∧
      compare_match [1, 2, 3, 4, 5, 6, 7, 8] 0 0 8 ≤
        compare_match_bytewise [1, 2, 3, 4, 5, 6, 7, 8] 0 0 8 :=
  compare_match_le_bytewise [1, 2, 3, 4, 5, 6, 7, 8] 0 0 8 (by decide) (by omega)

/-! ### Header shape (claim C7) -/

/-- Big-endian composition of four bytes is the base-256 value. -/
theorem be32_eq (a b c d : Nat) (ha : a < 256) (hb : b < 256) (hc : c < 256) (hd : d < 256) :
    a <<< 24 ||| b <<< 16 ||| c <<< 8 ||| d =
      ((a * 256 + b) * 256 + c) * 256 + d := by
  rw [Nat.shiftLeft_eq, Nat.shiftLeft_eq, Nat.shiftLeft_eq]
  rw [lor_eq_add 24 (b * 2 ^ 16) (a * 2 ^ 24) (by omega) ⟨a, by ring⟩]
  rw [lor_eq_add 16 (c * 2 ^ 8) (a * 2 ^ 24 + b * 2 ^ 16) (by omega) ⟨a * 2 ^ 8 + b, by ring⟩]
  rw [lor_eq_add 8 d (a * 2 ^ 24 + b * 2 ^ 16 + c * 2 ^ 8) (by omega)
    ⟨a * 2 ^ 16 + b * 2 ^ 8 + c, by ring⟩]
  ring

/-- The compressed stream starts with the 16-byte header written by lines
372-384 of `yaz0_compress`. -/
theorem yaz0_compress_eq_header_append (x : List Nat) :
    yaz0_compress x =
      [89, 97, 122, 48, (x.length >>> 24) &&& 255, (x.length >>> 16) &&& 255,
        (x.length >>> 8) &&& 255, x.length &&& 255, 0, 0, 0, 0, 0, 0, 0, 0] ++
        (writer_emit_literals
            (compressLoop x (x.length - 4) (x.length - 13) (fun _ => 0) 2 0
              (writer_new_group ⟨[], 0, 0⟩)).1
            (x.length -
              (compressLoop x (x.length - 4) (x.length - 13) (fun _ => 0) 2 0
                (writer_new_group ⟨[], 0, 0⟩)).2)
            x
            (compressLoop x (x.length - 4) (x.length - 13) (fun _ => 0) 2 0
              (writer_new_group ⟨[], 0, 0⟩)).2).out :=
  rfl

/-- C7: for every input of the compressor the output begins with the magic
bytes `'Y','a','z','0'`, carries the input length big-endian in bytes
4..7, has zero bytes at offsets 8..15, and consequently
`yaz0_get_decompressed_size` recovers the input length and
`yaz0_is_valid` accepts the stream. (`|x| < 2^31` is the C `int` domain of
the `length` parameter.) -/
theorem yaz0_compress_header_shape (x : List Nat) (h16 : 16 ≤ x.length)
    (h31 : x.length < 2147483648) :
    (yaz0_compress x).take 4 = [89, 97, 122, 48] ∧
      (((yaz0_compress x).getD 4 0 * 256 + (yaz0_compress x).getD 5 0) * 256 +
          (yaz0_compress x).getD 6 0) * 256 + (yaz0_compress x).getD 7 0 = x.length ∧
      (∀ i, 8 ≤ i → i < 16 → (yaz0_compress x).getD i 0 = 0) ∧
      yaz0_get_decompressed_size (yaz0_compress x) = x.length ∧
      yaz0_is_valid (yaz0_compress x) = true := by
  rw [yaz0_compress_eq_header_append x]
  generalize (writer_emit_literals
      (compressLoop x (x.length - 4) (x.length - 13) (fun _ => 0) 2 0
        (writer_new_group ⟨[], 0, 0⟩)).1
      (x.length -
        (compressLoop x (x.length - 4) (x.length - 13) (fun _ => 0) 2 0
          (writer_new_group ⟨[], 0, 0⟩)).2)
      x
      (compressLoop x (x.length - 4) (x.length - 13) (fun _ => 0) 2 0
        (writer_new_group ⟨[], 0, 0⟩)).2).out = rest
  have hb4 : (x.length >>> 24) &&& 255 = x.length / 16777216 % 256 := by
    rw [and_255, Nat.shiftRight_eq_div_pow]
  have hb5 : (x.length >>> 16) &&& 255 = x.length / 65536 % 256 := by
    rw [and_255, Nat.shiftRight_eq_div_pow]
  have hb6 : (x.length >>> 8) &&& 255 = x.length / 256 % 256 := by
    rw [and_255, Nat.shiftRight_eq_div_pow]
  have hb7 : x.length &&& 255 = x.length % 256 := and_255 _
  have hvalid : yaz0_is_valid
      ([89, 97, 122, 48, (x.length >>> 24) &&& 255, (x.length >>> 16) &&& 255,
        (x.length >>> 8) &&& 255, x.length &&& 255, 0, 0, 0, 0, 0, 0, 0, 0] ++ rest) = true := by
    rfl
  refine ⟨rfl, ?_, ?_, ?_, hvalid⟩
  · simp only [List.cons_append, List.nil_append, List.getD_cons_succ, List.getD_cons_zero,
      hb4, hb5, hb6, hb7]
    omega
  · intro i h8 hi
    interval_cases i <;> rfl
  · rw [yaz0_get_decompressed_size, if_pos hvalid]
    simp only [List.cons_append, List.nil_append, List.getD_cons_succ, List.getD_cons_zero,
      hb4, hb5, hb6, hb7]
    rw [be32_eq _ _ _ _ (by omega) (by omega) (by omega) (by omega)]
    omega

/-- Witness for `yaz0_compress_header_shape` on a concrete 16-byte input. -/
theorem yaz0_compress_header_shape_witness :
    (yaz0_compress (List.range 16)).take 4 = [89, 97, 122, 48] ∧
      yaz0_get_decompressed_size (yaz0_compress (List.range 16)) = 16 := by
  have h := yaz0_compress_header_shape (List.range 16) (by simp) (by simp)
  exact ⟨h.1, by simpa using h.2.2.2.1⟩

/-! ### Decoder termination (claim C10) -/

/-- The output never exceeds `maxout` after any successful token. -/
theorem decodeTok_le_maxout (y : List Nat) (length maxout : Nat) (dst0 : List Nat)
    (flag bits src : Nat) (s2 : DecState)
    (h : decodeTok y length maxout dst0 flag bits src = some s2) :
    s2.dst.length ≤ maxout := by
  simp only [decodeTok] at h
  split at h
  · split at h
    · simp at h
    · rw [Option.some_inj] at h
      subst h
      rename_i hg
      simp only [not_or] at hg
      simp
      omega
  · split at h
    · simp at h
    · split at h
      · split at h
        · simp at h
        · have h1 := decodeCopy_some _ _ _ _ _ _ _ _ h
          omega
      · have h1 := decodeCopy_some _ _ _ _ _ _ _ _ h
        omega

/-- The same bound for a whole step. -/
theorem decodeStep_le_maxout (y : List Nat) (length maxout : Nat) (s s2 : DecState)
    (h : decodeStep y length maxout s = some s2) : s2.dst.length ≤ maxout := by
  unfold decodeStep at h
  split at h
  · split at h
    · simp at h
    · exact decodeTok_le_maxout _ _ _ _ _ _ _ _ h
  · exact decodeTok_le_maxout _ _ _ _ _ _ _ _ h

/-- C10: `yaz0_decompress` terminates on every input. Each iteration of
its loop either fails (returns 0) or strictly advances the output cursor:
by exactly one byte for a literal and by at least three for a match (every
decoded match length is at least 3), while the cursor stays bounded by
`maxout`; the loop (`decodeLoop`, defined by well-founded recursion on
this very measure) therefore cannot run forever on any input. -/
theorem decode_strict_progress (y : List Nat) (length maxout : Nat) (s s2 : DecState)
    (h : decodeStep y length maxout s = some s2) :
    s.dst.length + 1 ≤ s2.dst.length ∧
      (s2.dst.length = s.dst.length + 1 ∨ s.dst.length + 3 ≤ s2.dst.length) ∧
      s2.dst.length ≤ maxout := by
  obtain ⟨h1, h2⟩ := decodeStep_progress y length maxout s s2 h
  exact ⟨h1, h2, decodeStep_le_maxout y length maxout s s2 h⟩

/-- Witness for `decode_strict_progress`: one literal step. -/
theorem decode_strict_progress_witness :
    (⟨0, [], 0, 0⟩ : DecState).dst.length + 1 ≤ (⟨2, [7], 254, 7⟩ : DecState).dst.length ∧
      ((⟨2, [7], 254, 7⟩ : DecState).dst.length = (⟨0, [], 0, 0⟩ : DecState).dst.length + 1 ∨
        (⟨0, [], 0, 0⟩ : DecState).dst.length + 3 ≤ (⟨2, [7], 254, 7⟩ : DecState).dst.length) ∧
      (⟨2, [7], 254, 7⟩ : DecState).dst.length ≤ 10 := by
  have hstep : decodeStep [255, 7] 2 10 ⟨0, [], 0, 0⟩ = some ⟨2, [7], 254, 7⟩ := by
    simp [decodeStep, decodeTok]
  exact decode_strict_progress [255, 7] 2 10 ⟨0, [], 0, 0⟩ ⟨2, [7], 254, 7⟩ hstep

/-! ### Decoder return value and validation (claims C2 and C8) -/

/-- Reading within the first `n` entries ignores everything beyond them. -/
theorem getD_take (y : List Nat) (n i : Nat) (h : i < n) :
    (y.take n).getD i 0 = y.getD i 0 := by
  rcases Nat.lt_or_ge i y.length with hi | hi
  · rw [List.getD_eq_getElem _ _ (by simp; omega), List.getD_eq_getElem _ _ hi]
    simp [List.getElem_take]
  · rw [List.getD_eq_default _ _ (by simp; omega), List.getD_eq_default _ _ hi]

/-- One unfolding of the decode loop: a successful step continues. -/
theorem decodeLoop_continue (y : List Nat) (length maxout D : Nat) (s s2 : DecState)
    (hlt : s.dst.length < D) (hs : decodeStep y length maxout s = some s2) :
    decodeLoop y length maxout D s = decodeLoop y length maxout D s2 := by
  conv_lhs => rw [decodeLoop]
  rw [if_pos hlt]
  split
  · rename_i hnone
    rw [hs] at hnone
    simp at hnone
  · rename_i s3 hs3
    rw [hs] at hs3
    rw [Option.some_inj] at hs3
    rw [hs3]

/-- One unfolding of the decode loop: a failing step fails the call. -/
theorem decodeLoop_fail (y : List Nat) (length maxout D : Nat) (s : DecState)
    (hlt : s.dst.length < D) (hs : decodeStep y length maxout s = none) :
    decodeLoop y length maxout D s = none := by
  rw [decodeLoop]
  rw [if_pos hlt]
  split
  · rfl
  · rename_i s3 hs3
    rw [hs] at hs3
    simp at hs3

/-- One unfolding of the decode loop: the loop exits once the cursor has
reached the declared size. -/
theorem decodeLoop_done (y : List Nat) (length maxout D : Nat) (s : DecState)
    (hge : ¬s.dst.length < D) : decodeLoop y length maxout D s = some s.dst := by
  rw [decodeLoop]
  rw [if_neg hge]

/-- A successful decode loop run ends between the declared size and the
output capacity. -/
theorem decodeLoop_some_bounds (y : List Nat) (length maxout D : Nat) :
    ∀ (s : DecState) (out : List Nat), s.dst.length ≤ maxout →
      decodeLoop y length maxout D s = some out →
      D ≤ out.length ∧ out.length ≤ maxout := by
  intro s
  generalize hn : D - s.dst.length = n
  induction n using Nat.strong_induction_on generalizing s with
  | _ n ih =>
    intro out hsm h
    rw [decodeLoop] at h
    split at h
    · rename_i hlt
      split at h
      · simp at h
      · rename_i s2 hs
        have hp := decodeStep_progress y length maxout s s2 hs
        have hm := decodeStep_le_maxout y length maxout s s2 hs
        exact ih (D - s2.dst.length) (by omega) s2 rfl out hm h
    · rename_i hge
      rw [Option.some_inj] at h
      subst h
      omega

/-- C2 (amended): a match token is rejected exactly when the reference
reaches before the output start (`dst - distance < output`) or the copy
would overrun the output buffer capacity `maxout` — the code checks
`dst + length > output + maxout`, not `output + D`; consequently a
successful call returns at least `D` and at most `maxout` bytes, with
exactly `D` whenever `maxout = D` (in particular whenever `maxout` is
sized to the declared output, as in a round trip). -/
theorem yaz0_decompress_match_checks_and_return (maxout : Nat) :
    (∀ (dst0 : List Nat) (flag bits distance len src2 : Nat),
        dst0.length < distance ∨ maxout < dst0.length + len →
        decodeCopy maxout dst0 flag bits distance len src2 = none) ∧
      (∀ (y : List Nat) (length : Nat) (out : List Nat),
        yaz0_decompress y length maxout = some out →
        yaz0_get_decompressed_size y ≤ out.length ∧ out.length ≤ maxout ∧
          (maxout = yaz0_get_decompressed_size y →
            out.length = yaz0_get_decompressed_size y)) := by
  constructor
  · intro dst0 flag bits distance len src2 hrej
    unfold decodeCopy
    by_cases h1 : dst0.length < distance
    · rw [if_pos h1]
    · rw [if_neg h1, if_pos (show dst0.length + len > maxout from by omega)]
  · intro y length out h
    simp only [yaz0_decompress] at h
    split at h
    · simp at h
    · split at h
      · simp at h
      · split at h
        · simp at h
        · have hb := decodeLoop_some_bounds y length maxout
            (yaz0_get_decompressed_size y) ⟨16, [], 0, 0⟩ out (by simp) h
          exact ⟨hb.1, hb.2, fun hmd => by omega⟩

/-- Witness for `yaz0_decompress_match_checks_and_return`: a rejected
match and a successful minimal stream. -/
theorem yaz0_decompress_match_checks_and_return_witness :
    decodeCopy 5 [1, 2] 0 0 3 4 9 = none ∧
      yaz0_get_decompressed_size [89, 97, 122, 48, 0, 0, 0, 1, 0, 0, 0, 0, 0, 0, 0, 0, 128, 65] ≤ 1 := by
  have h := yaz0_decompress_match_checks_and_return 5
  refine ⟨h.1 [1, 2] 0 0 3 4 9 (by omega), ?_⟩
  have hdec : yaz0_decompress [89, 97, 122, 48, 0, 0, 0, 1, 0, 0, 0, 0, 0, 0, 0, 0, 128, 65]
      18 5 = some [65] := by
    have hsz : yaz0_get_decompressed_size
        [89, 97, 122, 48, 0, 0, 0, 1, 0, 0, 0, 0, 0, 0, 0, 0, 128, 65] = 1 := by
      norm_num [yaz0_get_decompressed_size, yaz0_is_valid]
    rw [yaz0_decompress]
    rw [if_neg (by norm_num)]
    simp only [hsz]
    rw [if_neg (by norm_num), if_neg (by norm_num [int32ofUInt32])]
    rw [decodeLoop_continue _ 18 5 1 ⟨16, [], 0, 0⟩ ⟨18, [65], 0, 7⟩ (by norm_num)
      (by decide)]
    exact decodeLoop_done _ 18 5 1 ⟨18, [65], 0, 7⟩ (by norm_num)
  exact (h.2 _ 18 [65] hdec).1

/-- C2 (counterexample): declared size `D = 2` with `maxout = 10`; after
one literal, a match of length 3 at distance 1 passes the code's checks
(it only overruns `D`, not `maxout`), so the call succeeds, writes 4
bytes, and returns 4 — not 0, and not `D = 2`. -/
theorem yaz0_decompress_overrun_cex :
    yaz0_get_decompressed_size [89, 97, 122, 48, 0, 0, 0, 2, 0, 0, 0, 0, 0, 0, 0, 0, 128, 65, 16, 0] = 2 ∧
      yaz0_decompress [89, 97, 122, 48, 0, 0, 0, 2, 0, 0, 0, 0, 0, 0, 0, 0, 128, 65, 16, 0] 20 10 =
        some [65, 65, 65, 65] ∧
      yaz0_decompress_ret [89, 97, 122, 48, 0, 0, 0, 2, 0, 0, 0, 0, 0, 0, 0, 0, 128, 65, 16, 0] 20 10 = 4 := by
  have hsize : yaz0_get_decompressed_size
      [89, 97, 122, 48, 0, 0, 0, 2, 0, 0, 0, 0, 0, 0, 0, 0, 128, 65, 16, 0] = 2 := by
    norm_num [yaz0_get_decompressed_size, yaz0_is_valid]
  have hdec : yaz0_decompress [89, 97, 122, 48, 0, 0, 0, 2, 0, 0, 0, 0, 0, 0, 0, 0, 128, 65, 16, 0]
      20 10 = some [65, 65, 65, 65] := by
    rw [yaz0_decompress]
    rw [if_neg (by norm_num)]
    simp only [hsize]
    rw [if_neg (by norm_num), if_neg (by norm_num [int32ofUInt32])]
    rw [decodeLoop_continue _ 20 10 2 ⟨16, [], 0, 0⟩ ⟨18, [65], 0, 7⟩ (by norm_num)
      (by decide)]
    rw [decodeLoop_continue _ 20 10 2 ⟨18, [65], 0, 7⟩ ⟨20, [65, 65, 65, 65], 0, 6⟩ (by norm_num)
      (by decide)]
    exact decodeLoop_done _ 20 10 2 ⟨20, [65, 65, 65, 65], 0, 6⟩ (by norm_num)
  exact ⟨hsize, hdec, by simp [yaz0_decompress_ret, hdec]⟩

/-- Truncating the buffer to the declared length does not change one
decoded token: every read is bounds-checked against `length` first. -/
theorem decodeTok_take (y : List Nat) (length maxout : Nat) (dst0 : List Nat)
    (flag bits src : Nat) :
    decodeTok (y.take length) length maxout dst0 flag bits src =
      decodeTok y length maxout dst0 flag bits src := by
  simp only [decodeTok]
  split
  · split
    · rfl
    · rename_i hg
      simp only [not_or] at hg
      rw [getD_take y length src (by omega)]
  · split
    · rfl
    · rename_i h2
      rw [getD_take y length src (by omega), getD_take y length (src + 1) (by omega)]
      split
      · split
        · rfl
        · rename_i h3
          rw [getD_take y length (src + 2) (by omega)]
      · rfl

/-- Truncation invariance for a whole step, including the flag fetch. -/
theorem decodeStep_take (y : List Nat) (length maxout : Nat) (s : DecState) :
    decodeStep (y.take length) length maxout s = decodeStep y length maxout s := by
  unfold decodeStep
  split
  · split
    · rfl
    · rename_i hsrc
      rw [getD_take y length s.src (by omega)]
      exact decodeTok_take y length maxout s.dst _ 8 (s.src + 1)
  · exact decodeTok_take y length maxout s.dst s.flag s.bits s.src

/-- Truncation invariance for the decode loop. -/
theorem decodeLoop_take (y : List Nat) (length maxout D : Nat) :
    ∀ s : DecState,
      decodeLoop (y.take length) length maxout D s = decodeLoop y length maxout D s := by
  intro s
  generalize hn : D - s.dst.length = n
  induction n using Nat.strong_induction_on generalizing s with
  | _ n ih =>
    by_cases hlt : s.dst.length < D
    · cases hstep : decodeStep y length maxout s with
      | none =>
        rw [decodeLoop_fail _ length maxout D s hlt (by rw [decodeStep_take]; exact hstep),
          decodeLoop_fail y length maxout D s hlt hstep]
      | some s2 =>
        have hp := decodeStep_progress y length maxout s s2 hstep
        rw [decodeLoop_continue _ length maxout D s s2 hlt
            (by rw [decodeStep_take]; exact hstep),
          decodeLoop_continue y length maxout D s s2 hlt hstep]
        exact ih (D - s2.dst.length) (by omega) s2 rfl
    · rw [decodeLoop_done _ length maxout D s hlt, decodeLoop_done y length maxout D s hlt]

theorem yaz0_is_valid_take (y : List Nat) (length : Nat) (h4 : 4 ≤ length) :
    yaz0_is_valid (y.take length) = yaz0_is_valid y := by
  unfold yaz0_is_valid
  rw [getD_take y length 0 (by omega), getD_take y length 1 (by omega),
    getD_take y length 2 (by omega), getD_take y length 3 (by omega)]

theorem yaz0_get_decompressed_size_take (y : List Nat) (length : Nat) (h8 : 8 ≤ length) :
    yaz0_get_decompressed_size (y.take length) = yaz0_get_decompressed_size y := by
  unfold yaz0_get_decompressed_size
  rw [yaz0_is_valid_take y length (by omega)]
  rw [getD_take y length 4 (by omega), getD_take y length 5 (by omega),
    getD_take y length 6 (by omega), getD_take y length 7 (by omega)]

/-- C8 (amended): the decoder returns 0 on every preflight violation —
buffer shorter than the header, wrong magic, zero declared size, or a
declared size exceeding `maxout` — and on any truncation it detects
mid-stream (a `none` in the model); it never reads an input byte at or
past index `length` (truncating the buffer there leaves the result
unchanged) and never writes more than `maxout` output bytes. A stream
whose tokens overrun the declared size `D` while staying within `maxout`
is, however, accepted: the back-reference length check is against
`maxout`, not `D` (see the counterexample), so "does not satisfy the
format" must exclude that case. -/
theorem yaz0_decompress_robust :
    (∀ (y : List Nat) (length maxout : Nat), length < 16 →
        yaz0_decompress_ret y length maxout = 0) ∧
      (∀ (y : List Nat) (length maxout : Nat), yaz0_is_valid y = false →
        yaz0_decompress_ret y length maxout = 0) ∧
      (∀ (y : List Nat) (length maxout : Nat), yaz0_get_decompressed_size y = 0 →
        yaz0_decompress_ret y length maxout = 0) ∧
      (∀ (y : List Nat) (length maxout : Nat),
        maxout < yaz0_get_decompressed_size y →
        yaz0_get_decompressed_size y < 2147483648 →
        yaz0_decompress_ret y length maxout = 0) ∧
      (∀ (y : List Nat) (length maxout : Nat),
        yaz0_decompress (y.take length) length maxout = yaz0_decompress y length maxout) ∧
      (∀ (y : List Nat) (length maxout : Nat) (out : List Nat),
        yaz0_decompress y length maxout = some out → out.length ≤ maxout) := by
  have hzero : ∀ (y : List Nat) (length maxout : Nat), yaz0_get_decompressed_size y = 0 →
      yaz0_decompress_ret y length maxout = 0 := by
    intro y length maxout hz
    have hnone : yaz0_decompress y length maxout = none := by
      rw [yaz0_decompress_eq, hz]
      split
      · rfl
      · rfl
    simp [yaz0_decompress_ret, hnone]
  refine ⟨?_, ?_, hzero, ?_, ?_, ?_⟩
  · intro y length maxout hlen
    have hnone : yaz0_decompress y length maxout = none := by
      rw [yaz0_decompress_eq, if_pos hlen]
    simp [yaz0_decompress_ret, hnone]
  · intro y length maxout hv
    apply hzero
    unfold yaz0_get_decompressed_size
    rw [hv]
    simp
  · intro y length maxout hover hint
    have hnone : yaz0_decompress y length maxout = none := by
      rw [yaz0_decompress_eq]
      split
      · rfl
      · rw [if_neg (show ¬yaz0_get_decompressed_size y = 0 from by omega)]
        rw [if_pos (by
          unfold int32ofUInt32
          rw [if_pos hint]
          exact_mod_cast hover)]
    simp [yaz0_decompress_ret, hnone]
  · intro y length maxout
    rw [yaz0_decompress_eq, yaz0_decompress_eq]
    by_cases hlen : length < 16
    · rw [if_pos hlen, if_pos hlen]
    · rw [if_neg hlen, if_neg hlen]
      rw [yaz0_get_decompressed_size_take y length (by omega)]
      simp only [decodeLoop_take]
  · intro y length maxout out h
    simp only [yaz0_decompress] at h
    split at h
    · simp at h
    · split at h
      · simp at h
      · split at h
        · simp at h
        · exact (decodeLoop_some_bounds y length maxout
            (yaz0_get_decompressed_size y) ⟨16, [], 0, 0⟩ out (by simp) h).2

/-- C8 (counterexample): a stream that does not satisfy the format — it
declares 3 decompressed bytes but its tokens decode 6 — is accepted by
`yaz0_decompress` with `maxout = 20`: the call returns 6, not 0. -/
theorem yaz0_decompress_nonformat_accepted_cex :
    yaz0_get_decompressed_size [89, 97, 122, 48, 0, 0, 0, 3, 0, 0, 0, 0, 0, 0, 0, 0, 128, 66, 48, 0] = 3 ∧
      yaz0_decompress [89, 97, 122, 48, 0, 0, 0, 3, 0, 0, 0, 0, 0, 0, 0, 0, 128, 66, 48, 0] 20 20 =
        some [66, 66, 66, 66, 66, 66] ∧
      yaz0_decompress_ret [89, 97, 122, 48, 0, 0, 0, 3, 0, 0, 0, 0, 0, 0, 0, 0, 128, 66, 48, 0] 20 20 ≠ 0 := by
  have hsize : yaz0_get_decompressed_size
      [89, 97, 122, 48, 0, 0, 0, 3, 0, 0, 0, 0, 0, 0, 0, 0, 128, 66, 48, 0] = 3 := by decide
  have hdec : yaz0_decompress [89, 97, 122, 48, 0, 0, 0, 3, 0, 0, 0, 0, 0, 0, 0, 0, 128, 66, 48, 0]
      20 20 = some [66, 66, 66, 66, 66, 66] := by
    rw [yaz0_decompress]
    rw [if_neg (by norm_num)]
    simp only [hsize]
    rw [if_neg (by norm_num), if_neg (by norm_num [int32ofUInt32])]
    rw [decodeLoop_continue _ 20 20 3 ⟨16, [], 0, 0⟩ ⟨18, [66], 0, 7⟩ (by norm_num) (by decide)]
    rw [decodeLoop_continue _ 20 20 3 ⟨18, [66], 0, 7⟩ ⟨20, [66, 66, 66, 66, 66, 66], 0, 6⟩
      (by norm_num) (by decide)]
    exact decodeLoop_done _ 20 20 3 ⟨20, [66, 66, 66, 66, 66, 66], 0, 6⟩ (by norm_num)
  exact ⟨hsize, hdec, by simp [yaz0_decompress_ret, hdec]⟩

/-- Witness for `yaz0_decompress_robust`: a short buffer and a wrong
magic both return 0. -/
theorem yaz0_decompress_robust_witness :
    yaz0_decompress_ret [1, 2, 3] 3 10 = 0 ∧
      yaz0_decompress_ret [88, 97, 122, 48, 0, 0, 0, 4, 0, 0, 0, 0, 0, 0, 0, 0, 255, 1] 18 10 = 0 := by
  have h := yaz0_decompress_robust
  exact ⟨h.1 [1, 2, 3] 3 10 (by omega),
    h.2.1 [88, 97, 122, 48, 0, 0, 0, 4, 0, 0, 0, 0, 0, 0, 0, 0, 255, 1] 18 10 (by decide)⟩

/-! ### Encoder match invariants (claim C9) -/

/-- The tail of the byte sequence value: `read_u32 & 0xffffff` is below
the sentinel `0x1000000`. -/
theorem seq_lt_sentinel (x : List Nat) (p : Nat) :
    read_u32 x p &&& 16777215 < 16777216 := by
  rw [and_mask24]
  exact Nat.mod_lt _ (by omega)

/-- Helper containing the full analysis of a `findMatch` hit: distance
range, no `uint32_t` wrap, fingerprint equality, invariant preservation. -/
theorem findMatch_hit (x : List Nat) (iplimit : Nat) (htab htab2 : Nat → Nat)
    (ip ip2 refo dist : Nat)
    (hinv : ∀ i, htab i < ip) (hlim : iplimit ≤ 4294967296)
    (h : findMatch x iplimit htab ip = (htab2, ip2, some (refo, dist))) :
    1 ≤ dist ∧ dist ≤ 4095 ∧ dist - 1 ≤ 4094 ∧
      (dist + 4294967295) % 4294967296 = dist - 1 ∧
      ip ≤ ip2 - 1 ∧ ip2 - 1 < iplimit ∧ refo + dist = ip2 - 1 ∧ refo < ip2 - 1 ∧
      read_u32 x (ip2 - 1) &&& 16777215 = read_u32 x refo &&& 16777215 ∧
      (∀ i, htab2 i < ip2) ∧
      (∀ p q lim, 3 ≤ compare_match x p q lim + 3) := by
  generalize hn : iplimit - ip = n
  induction n using Nat.strong_induction_on generalizing htab ip with
  | _ n ih =>
    rw [findMatch] at h
    by_cases hge : ip ≥ iplimit
    · rw [if_pos hge] at h
      simp at h
    · rw [if_neg hge] at h
      have hinv1 : ∀ i, (fun i =>
          if i = compute_hash (read_u32 x ip &&& 16777215) then ip else htab i) i < ip + 1 := by
        intro i
        dsimp only
        split
        · omega
        · have := hinv i
          omega
      split at h
      · rename_i hdlt
        split at h
        · obtain ⟨c1, c2, c3, c4, c5, c6, c7, c8, c9, c10, c11⟩ :=
            ih (iplimit - (ip + 1)) (by omega) _ (ip + 1) hinv1 h rfl
          exact ⟨c1, c2, c3, c4, by omega, c6, c7, c8, c9, c10, c11⟩
        · rename_i hseq
          rw [not_ne_iff] at hseq
          rw [Prod.mk.injEq, Prod.mk.injEq, Option.some_inj, Prod.mk.injEq] at h
          obtain ⟨hht, hip2, hrefo, hdist⟩ := h
          have hrlt : htab (compute_hash (read_u32 x ip &&& 16777215)) < ip :=
            hinv _
          have hdval : dist = ip - htab (compute_hash (read_u32 x ip &&& 16777215)) := by
            rw [← hdist]
            omega
          subst hip2
          refine ⟨by omega, by omega, by omega, by omega, by omega, by omega, by omega,
            by omega, ?_, ?_, fun p q lim => by omega⟩
          · have hpos : ip + 1 - 1 = ip := by omega
            rw [hpos, ← hrefo]
            exact hseq
          · intro i
            rw [← hht]
            exact hinv1 i
      · rename_i hdge
        split at h
        · obtain ⟨c1, c2, c3, c4, c5, c6, c7, c8, c9, c10, c11⟩ :=
            ih (iplimit - (ip + 1)) (by omega) _ (ip + 1) hinv1 h rfl
          exact ⟨c1, c2, c3, c4, by omega, c6, c7, c8, c9, c10, c11⟩
        · rename_i hseq
          rw [not_ne_iff] at hseq
          have := seq_lt_sentinel x ip
          omega

/-- C9: under the driver's reachable-state invariant (every hash-table
entry is a strictly earlier offset than the cursor; initially all entries
are the 0 sentinel and the cursor starts at offset 2), every hit reported
by `findMatch` has distance `d` with `1 ≤ d ≤ 4095`, so the stored 12-bit
field `d - 1` lies in [0, 4094] and the `uint32_t` decrement in
`writer_emit_match` does not wrap; the candidate is a strictly earlier
position whose 3-byte fingerprint equals the cursor's, the invariant is
preserved, and every emitted match length `compare_match(...) + 3` is at
least 3. -/
theorem findMatch_valid (x : List Nat) (iplimit : Nat) (htab htab2 : Nat → Nat)
    (ip ip2 refo dist : Nat)
    (hinv : ∀ i, htab i < ip) (hlim : iplimit ≤ 4294967296)
    (h : findMatch x iplimit htab ip = (htab2, ip2, some (refo, dist))) :
    1 ≤ dist ∧ dist ≤ 4095 ∧ dist - 1 ≤ 4094 ∧
      (dist + 4294967295) % 4294967296 = dist - 1 ∧
      ip ≤ ip2 - 1 ∧ ip2 - 1 < iplimit ∧ refo + dist = ip2 - 1 ∧ refo < ip2 - 1 ∧
      read_u32 x (ip2 - 1) &&& 16777215 = read_u32 x refo &&& 16777215 ∧
      (∀ i, htab2 i < ip2) ∧
      (∀ p q lim, 3 ≤ compare_match x p q lim + 3) :=
  findMatch_hit x iplimit htab htab2 ip ip2 refo dist hinv hlim h

/-- Witness for `findMatch_valid`: on 20 repeated bytes the scan finds a
hit at offset 2 against the offset-0 sentinel, distance 2. -/
theorem findMatch_valid_witness :
    ((1 : Nat) ≤ 2 ∧ (2 : Nat) ≤ 4095) ∧ (2 + 4294967295) % 4294967296 = 2 - 1 := by
  have hfm : findMatch (List.replicate 20 7) 7 (fun _ => 0) 2 =
      ((fun i => if i = compute_hash (read_u32 (List.replicate 20 7) 2 &&& 16777215)
          then 2 else (0 : Nat)), 3, some (0, 2)) := by
    rw [findMatch]
    rw [if_neg (by norm_num), if_neg (by decide)]
    rfl
  have h := findMatch_valid (List.replicate 20 7) 7 (fun _ => 0) _ 2 3 0 2
    (fun i => by norm_num) (by norm_num) hfm
  exact ⟨⟨h.1, h.2.1⟩, h.2.2.2.1⟩

/-! ### Token-level view of the emitted stream

The writer interleaves flag bytes with literal bytes and match codes. To
reason about the compressor and tie it to the decoder we re-express the
writer state as a function of the list of tokens emitted so far. -/

/-- One emitted token: a literal byte, or one match chunk
(length, distance). -/
inductive Tok where
  | lit : Nat → Tok
  | mtch : Nat → Nat → Tok
deriving DecidableEq, Repr

/-- Number of decompressed bytes a token expands to. -/
def tokLen : Tok → Nat
  | .lit _ => 1
  | .mtch len _ => len

/-- The payload bytes of a token, matching the encodings of
`writer_emit_match` (for `3 ≤ len ≤ 273` and `1 ≤ d ≤ 4096`). -/
def tokenBytes : Tok → List Nat
  | .lit b => [b]
  | .mtch len d =>
    if len < 18 then [(len - 2) * 16 + (d - 1) / 256, (d - 1) % 256]
    else [(d - 1) / 256, (d - 1) % 256, len - 18]

def isLit : Tok → Bool
  | .lit _ => true
  | .mtch _ _ => false

/-- The flag byte accumulated by a token group, starting from bit `m`. -/
def flagVal : List Tok → Nat → Nat
  | [], _ => 0
  | t :: ts, m => (if isLit t then m else 0) + flagVal ts (m / 2)

/-- Concatenated payload bytes of a token list. -/
def tokensBytes : List Tok → List Nat
  | [] => []
  | t :: ts => tokenBytes t ++ tokensBytes ts

/-- The serialized stream of a token list: one flag byte per group of
eight tokens, followed by the group's payload bytes. -/
def serializeFull (ts : List Tok) : List Nat :=
  if ts.isEmpty then []
  else flagVal (ts.take 8) 128 :: (tokensBytes (ts.take 8) ++ serializeFull (ts.drop 8))
termination_by ts.length
decreasing_by
  rename_i hne
  have hpos : 0 < ts.length := by
    cases ts
    · simp at hne
    · simp
  simp only [List.length_drop]
  omega

/-- The writer state after emitting exactly the tokens `ts` into a fresh
stream (one `writer_new_group` at the start): the serialized full groups,
then either a dangling zero flag byte (group boundary) or the partial
group in progress. -/
def writerOf (ts : List Tok) : Yaz0Writer :=
  let full := ts.take (8 * (ts.length / 8))
  let part := ts.drop (8 * (ts.length / 8))
  if part.isEmpty then
    ⟨serializeFull full ++ [0], (serializeFull full).length, 128⟩
  else
    ⟨serializeFull full ++ flagVal part 128 :: tokensBytes part,
      (serializeFull full).length, 128 >>> part.length⟩

/-- Expansion of one token on top of already-decoded output. -/
def expandTok (acc : List Nat) : Tok → List Nat
  | .lit b => acc ++ [b]
  | .mtch len d => seqCopy acc d len

/-- Expansion of a token list. -/
def expandToks (acc : List Nat) (ts : List Tok) : List Nat :=
  ts.foldl expandTok acc

/-- Total expanded size of a token list. -/
def sumTokLens (ts : List Tok) : Nat :=
  (ts.map tokLen).sum

/-- Decodability of one token at output position `pos` against a declared
size `D`. -/
def TokOK (D pos : Nat) : Tok → Prop
  | .lit _ => pos < D
  | .mtch len d => 1 ≤ d ∧ d ≤ 4096 ∧ 3 ≤ len ∧ len ≤ 273 ∧ d ≤ pos ∧ pos + len ≤ D

/-- Decodability of a token list starting at output position `pos`. -/
def ValidToks (D : Nat) : Nat → List Tok → Prop
  | _, [] => True
  | pos, t :: ts => TokOK D pos t ∧ ValidToks D (pos + tokLen t) ts

/-! ### Flag byte arithmetic -/

theorem flagVal_zero (ts : List Tok) : flagVal ts 0 = 0 := by
  induction ts with
  | nil => rfl
  | cons t ts ih =>
    rw [flagVal]
    simp [ih]

theorem flagVal_append (a b : List Tok) :
    ∀ m, flagVal (a ++ b) m = flagVal a m + flagVal b (m / 2 ^ a.length) := by
  induction a with
  | nil => simp [flagVal]
  | cons t a ih =>
    intro m
    rw [List.cons_append, flagVal, flagVal, ih (m / 2)]
    have hdiv : m / 2 / 2 ^ a.length = m / 2 ^ (t :: a).length := by
      rw [Nat.div_div_eq_div_mul, List.length_cons, pow_succ, Nat.mul_comm]
    rw [hdiv]
    omega

theorem flagVal_lits (bs : List Nat) :
    ∀ j, bs.length ≤ j + 1 →
      flagVal (bs.map Tok.lit) (2 ^ j) = 2 ^ (j + 1) - 2 ^ (j + 1 - bs.length) := by
  induction bs with
  | nil => simp [flagVal]
  | cons b bs ih =>
    intro j hlen
    rw [List.map_cons, flagVal]
    simp only [isLit, if_pos]
    rcases Nat.eq_zero_or_pos j with hj | hj
    · subst hj
      simp only [List.length_cons] at hlen
      have hbs : bs = [] := List.length_eq_zero.mp (by omega)
      subst hbs
      simp [flagVal]
    · have hdiv : 2 ^ j / 2 = 2 ^ (j - 1) := by
        rw [show j = (j - 1) + 1 by omega, pow_succ]
        simp
      rw [hdiv, ih (j - 1) (by simp only [List.length_cons] at hlen; omega)]
      have h1 : 2 ^ (j - 1 + 1 - bs.length) = 2 ^ (j + 1 - (b :: bs).length) := by
        congr 1
        simp only [List.length_cons]
        omega
      have h2 : (2 : Nat) ^ (j - 1 + 1) = 2 ^ j := by
        congr 1
        omega
      have h3 : 2 ^ (j + 1 - (b :: bs).length) ≤ 2 ^ j := by
        apply Nat.pow_le_pow_right (by omega)
        simp only [List.length_cons]
        omega
      have h4 : (2 : Nat) ^ j ≤ 2 ^ (j + 1) := Nat.pow_le_pow_right (by omega) (by omega)
      rw [h1, h2]
      rw [pow_succ]
      omega

theorem flagVal_dvd (ts : List Tok) :
    ∀ j, ts.length ≤ j + 1 → 2 ^ (j + 1 - ts.length) ∣ flagVal ts (2 ^ j) := by
  induction ts with
  | nil => simp [flagVal]
  | cons t ts ih =>
    intro j hlen
    rw [flagVal]
    rcases Nat.eq_zero_or_pos j with hj | hj
    · subst hj
      simp only [List.length_cons] at hlen
      have hts : ts = [] := List.length_eq_zero.mp (by omega)
      subst hts
      simp [flagVal]
    · have hdiv : 2 ^ j / 2 = 2 ^ (j - 1) := by
        rw [show j = (j - 1) + 1 by omega, pow_succ]
        simp
      rw [hdiv]
      have hrec := ih (j - 1) (by simp only [List.length_cons] at hlen; omega)
      have heq : j - 1 + 1 - ts.length = j + 1 - (t :: ts).length := by
        simp only [List.length_cons]
        omega
      rw [heq] at hrec
      apply Nat.dvd_add _ hrec
      split
      · have hj1 : ts.length + 1 ≤ j + 1 := by
          simp only [List.length_cons] at hlen
          omega
        refine ⟨2 ^ ((t :: ts).length - 1), ?_⟩
        rw [← pow_add]
        congr 1
        simp only [List.length_cons]
        omega
      · exact Nat.dvd_zero _

theorem flagVal_lt (ts : List Tok) : ∀ j, flagVal ts (2 ^ j) < 2 ^ (j + 1) := by
  induction ts with
  | nil =>
    intro j
    rw [flagVal]
    positivity
  | cons t ts ih =>
    intro j
    rw [flagVal]
    rcases Nat.eq_zero_or_pos j with hj | hj
    · subst hj
      have := flagVal_zero ts
      simp only [pow_zero, Nat.div_self (by omega : (0:Nat) < 1)] at *
      have h1 : (1 : Nat) / 2 = 0 := by omega
      rw [h1, this]
      split <;> omega
    · have hdiv : 2 ^ j / 2 = 2 ^ (j - 1) := by
        rw [show j = (j - 1) + 1 by omega, pow_succ]
        simp
      rw [hdiv]
      have hrec := ih (j - 1)
      have h2 : (2 : Nat) ^ (j - 1 + 1) = 2 ^ j := by
        congr 1
        omega
      rw [h2] at hrec
      rw [pow_succ]
      split <;> omega

theorem flagVal_lt_256 (ts : List Tok) : flagVal ts 128 < 256 := by
  have := flagVal_lt ts 7
  norm_num at this
  convert this using 2

theorem flagVal_append_mtch (ts : List Tok) (l d m : Nat) :
    flagVal (ts ++ [Tok.mtch l d]) m = flagVal ts m := by
  rw [flagVal_append]
  simp [flagVal, isLit]

theorem tokensBytes_append (a b : List Tok) :
    tokensBytes (a ++ b) = tokensBytes a ++ tokensBytes b := by
  induction a with
  | nil => rfl
  | cons t a ih =>
    rw [List.cons_append, tokensBytes, tokensBytes, ih, List.append_assoc]

theorem tokensBytes_lits (bs : List Nat) : tokensBytes (bs.map Tok.lit) = bs := by
  induction bs with
  | nil => rfl
  | cons b bs ih =>
    rw [List.map_cons, tokensBytes, ih]
    rfl

/-! ### Serialization structure -/

theorem serializeFull_nil : serializeFull [] = [] := by
  rw [serializeFull]
  rfl

theorem serializeFull_small (ts : List Tok) (hne : ts ≠ []) (h8 : ts.length ≤ 8) :
    serializeFull ts = flagVal ts 128 :: tokensBytes ts := by
  rw [serializeFull]
  rw [if_neg (by simpa using hne)]
  rw [List.take_of_length_le h8, List.drop_eq_nil_of_le h8, serializeFull_nil,
    List.append_nil]

theorem serializeFull_block (a b : List Tok) (ha : a.length = 8) :
    serializeFull (a ++ b) = flagVal a 128 :: (tokensBytes a ++ serializeFull b) := by
  rw [serializeFull]
  have hne : (a ++ b).isEmpty = false := by
    cases a
    · simp at ha
    · simp
  rw [if_neg (by simp [hne])]
  rw [← ha, List.take_left, List.drop_left]

theorem serializeFull_aligned_append (a b : List Tok) (ha : a.length % 8 = 0) :
    serializeFull (a ++ b) = serializeFull a ++ serializeFull b := by
  generalize hn : a.length = n
  induction n using Nat.strong_induction_on generalizing a with
  | _ n ih =>
    rcases List.eq_nil_or_concat a with rfl | hcons
    · simp [serializeFull_nil]
    · have hpos : 0 < a.length := by
        obtain ⟨l, e, rfl⟩ := hcons
        simp
      have h8 : 8 ≤ a.length := by omega
      have hsplit : a = a.take 8 ++ a.drop 8 := (List.take_append_drop 8 a).symm
      have hlen8 : (a.take 8).length = 8 := by
        rw [List.length_take]
        omega
      rw [hsplit, List.append_assoc,
        serializeFull_block _ _ hlen8, serializeFull_block _ _ hlen8]
      rw [ih (a.drop 8).length (by simp; omega) (a.drop 8) (by simp; omega) rfl]
      simp [List.append_assoc]

/-! ### The writer state as a function of the emitted tokens -/

theorem writerOf_aligned (ts : List Tok) (h : ts.length % 8 = 0) :
    writerOf ts = ⟨serializeFull ts ++ [0], (serializeFull ts).length, 128⟩ := by
  rw [writerOf]
  have hfull : 8 * (ts.length / 8) = ts.length := by omega
  rw [hfull, List.take_length, List.drop_length]
  rfl

theorem writerOf_nil : writerOf [] = ⟨[0], 0, 128⟩ := by
  rw [writerOf_aligned [] (by simp), serializeFull_nil]
  rfl

theorem writerOf_midgroup (ts : List Tok) (h : ts.length % 8 ≠ 0) :
    writerOf ts =
      ⟨serializeFull (ts.take (8 * (ts.length / 8))) ++
          flagVal (ts.drop (8 * (ts.length / 8))) 128 ::
            tokensBytes (ts.drop (8 * (ts.length / 8))),
        (serializeFull (ts.take (8 * (ts.length / 8)))).length,
        128 >>> (ts.length % 8)⟩ := by
  rw [writerOf]
  have hlt : 8 * (ts.length / 8) < ts.length := by omega
  have hne : (ts.drop (8 * (ts.length / 8))).isEmpty = false := by
    rw [List.isEmpty_eq_false]
    intro hcon
    have := congrArg List.length hcon
    simp only [List.length_drop, List.length_nil] at this
    omega
  rw [if_neg (by simp [hne])]
  have hplen : (ts.drop (8 * (ts.length / 8))).length = ts.length % 8 := by
    simp only [List.length_drop]
    omega
  rw [hplen]

theorem writerOf_part_length (ts : List Tok) :
    (ts.drop (8 * (ts.length / 8))).length = ts.length % 8 := by
  simp only [List.length_drop]
  omega

theorem writerOf_full_aligned (ts : List Tok) :
    (ts.take (8 * (ts.length / 8))).length % 8 = 0 := by
  rw [List.length_take]
  have : 8 * (ts.length / 8) ≤ ts.length := by omega
  rw [Nat.min_eq_left this]
  omega

/-- The writer output is the serialized stream, with a dangling zero flag
byte exactly at group boundaries. -/
theorem writerOf_out (ts : List Tok) :
    (writerOf ts).out =
      serializeFull ts ++ (if ts.length % 8 = 0 then [0] else []) := by
  by_cases h : ts.length % 8 = 0
  · rw [writerOf_aligned ts h, if_pos h]
  · rw [writerOf_midgroup ts h, if_neg h]
    have hsplit := List.take_append_drop (8 * (ts.length / 8)) ts
    conv_rhs => rw [← hsplit]
    rw [serializeFull_aligned_append _ _ (writerOf_full_aligned ts)]
    rw [serializeFull_small (ts.drop (8 * (ts.length / 8)))
      (by
        intro hcon
        have := congrArg List.length hcon
        simp only [List.length_drop, List.length_nil] at this
        omega)
      (by rw [writerOf_part_length]; omega)]
    simp

theorem tokensBytes_singleton (t : Tok) : tokensBytes [t] = tokenBytes t := by
  rw [tokensBytes, tokensBytes, List.append_nil]

theorem flagVal_singleton_mtch (l d m : Nat) : flagVal [Tok.mtch l d] m = 0 := by
  rw [flagVal, flagVal]
  simp [isLit]

/-- Appending one match token mid-group: the payload bytes are appended
and the mask shifts. -/
theorem writerOf_append_mtch_mid (ts : List Tok) (l d : Nat)
    (hr : ts.length % 8 ≠ 7) :
    writerOf (ts ++ [Tok.mtch l d]) =
      ⟨(writerOf ts).out ++ tokenBytes (Tok.mtch l d), (writerOf ts).flagp,
        (writerOf ts).mask >>> 1⟩ := by
  by_cases h0 : ts.length % 8 = 0
  · have hlen : (ts ++ [Tok.mtch l d]).length = ts.length + 1 := by simp
    have hr1 : (ts ++ [Tok.mtch l d]).length % 8 = 1 := by omega
    rw [writerOf_midgroup _ (by omega), writerOf_aligned ts h0]
    have hdiv : 8 * ((ts ++ [Tok.mtch l d]).length / 8) = ts.length := by omega
    rw [hdiv, List.take_left, List.drop_left]
    rw [flagVal_singleton_mtch, tokensBytes_singleton, hr1]
    simp [List.append_assoc]
  · have hlen : (ts ++ [Tok.mtch l d]).length = ts.length + 1 := by simp
    have hr1 : (ts ++ [Tok.mtch l d]).length % 8 = ts.length % 8 + 1 := by omega
    rw [writerOf_midgroup _ (by omega), writerOf_midgroup ts h0]
    have hdiv : 8 * ((ts ++ [Tok.mtch l d]).length / 8) = 8 * (ts.length / 8) := by omega
    have hle : 8 * (ts.length / 8) ≤ ts.length := by omega
    rw [hdiv, List.take_append_of_le_length hle, List.drop_append_of_le_length hle]
    rw [flagVal_append, flagVal_singleton_mtch, tokensBytes_append, tokensBytes_singleton]
    rw [hr1]
    have hmask : 128 >>> (ts.length % 8 + 1) = 128 >>> (ts.length % 8) >>> 1 :=
      Nat.shiftRight_add 128 _ 1
    rw [hmask]
    simp [List.append_assoc]

/-- Appending one match token as the eighth of its group: the payload is
appended and a fresh group is opened. -/
theorem writerOf_append_mtch_boundary (ts : List Tok) (l d : Nat)
    (hr : ts.length % 8 = 7) :
    writerOf (ts ++ [Tok.mtch l d]) =
      ⟨(writerOf ts).out ++ tokenBytes (Tok.mtch l d) ++ [0],
        ((writerOf ts).out ++ tokenBytes (Tok.mtch l d)).length, 128⟩ := by
  have hlen : (ts ++ [Tok.mtch l d]).length = ts.length + 1 := by simp
  rw [writerOf_aligned _ (by omega), writerOf_midgroup ts (by omega)]
  have hle : 8 * (ts.length / 8) ≤ ts.length := by omega
  have hsplit : ts ++ [Tok.mtch l d] =
      ts.take (8 * (ts.length / 8)) ++ (ts.drop (8 * (ts.length / 8)) ++ [Tok.mtch l d]) := by
    rw [← List.append_assoc, List.take_append_drop]
  have hplen : (ts.drop (8 * (ts.length / 8)) ++ [Tok.mtch l d]).length = 8 := by
    simp only [List.length_append, List.length_drop, List.length_cons, List.length_nil]
    omega
  have hser : serializeFull (ts ++ [Tok.mtch l d]) =
      serializeFull (ts.take (8 * (ts.length / 8))) ++
        flagVal (ts.drop (8 * (ts.length / 8))) 128 ::
          (tokensBytes (ts.drop (8 * (ts.length / 8))) ++ tokenBytes (Tok.mtch l d)) := by
    rw [hsplit, serializeFull_aligned_append _ _ (writerOf_full_aligned ts)]
    rw [serializeFull_small (ts.drop (8 * (ts.length / 8)) ++ [Tok.mtch l d]) (by
        intro hcon
        have := congrArg List.length hcon
        rw [hplen] at this
        simp at this)
      (le_of_eq hplen)]
    rw [flagVal_append, flagVal_singleton_mtch, tokensBytes_append, tokensBytes_singleton]
    simp
  rw [hser]
  have hout : serializeFull (ts.take (8 * (ts.length / 8))) ++
      flagVal (ts.drop (8 * (ts.length / 8))) 128 ::
        (tokensBytes (ts.drop (8 * (ts.length / 8))) ++ tokenBytes (Tok.mtch l d)) =
      (serializeFull (ts.take (8 * (ts.length / 8))) ++
        flagVal (ts.drop (8 * (ts.length / 8))) 128 ::
          tokensBytes (ts.drop (8 * (ts.length / 8)))) ++ tokenBytes (Tok.mtch l d) := by
    simp
  rw [hout]

theorem writerOf_mask (ts : List Tok) :
    (writerOf ts).mask = 128 >>> (ts.length % 8) := by
  by_cases h : ts.length % 8 = 0
  · rw [writerOf_aligned ts h, h]
    rfl
  · rw [writerOf_midgroup ts h]

/-- The final mask/new-group step of a match emission, at the
representation level. -/
theorem writer_match_step (ts : List Tok) (l d : Nat) :
    (if (writerOf ts).mask >>> 1 = 0 then
        writer_new_group
          ⟨(writerOf ts).out ++ tokenBytes (Tok.mtch l d), (writerOf ts).flagp,
            (writerOf ts).mask >>> 1⟩
      else
        ⟨(writerOf ts).out ++ tokenBytes (Tok.mtch l d), (writerOf ts).flagp,
          (writerOf ts).mask >>> 1⟩) =
      writerOf (ts ++ [Tok.mtch l d]) := by
  have hmask := writerOf_mask ts
  have hmod : ts.length % 8 < 8 := Nat.mod_lt _ (by omega)
  by_cases hr : ts.length % 8 = 7
  · rw [if_pos (by rw [hmask, hr]; rfl)]
    rw [writerOf_append_mtch_boundary ts l d hr]
    rfl
  · rw [if_neg (by
      rw [hmask]
      generalize hg : ts.length % 8 = r at hr hmod
      interval_cases r <;> simp_all)]
    rw [writerOf_append_mtch_mid ts l d hr]

theorem dist_high_eq (d1 : Nat) (h : d1 ≤ 4095) : (d1 >>> 8) &&& 15 = d1 / 256 := by
  rw [Nat.shiftRight_eq_div_pow, and_15]
  have : d1 / 2 ^ 8 < 16 := by omega
  norm_num
  omega

/-- The 3-byte chunk payload written by the oversized-match loop is the
long-form token encoding. -/
theorem chunk_bytes_eq (c dist : Nat) (hc18 : 18 ≤ c) (hc : c ≤ 273)
    (h1 : 1 ≤ dist) (h2 : dist ≤ 4096) :
    [((dist - 1) >>> 8) &&& 15, (dist - 1) &&& 255, (c - 18) % 256] =
      tokenBytes (Tok.mtch c dist) := by
  rw [tokenBytes]
  rw [if_neg (by omega)]
  rw [dist_high_eq _ (by omega), and_255, Nat.mod_eq_of_lt (show c - 18 < 256 by omega)]

/-- The 2-byte short-form payload computed by `writer_emit_match` is the
short-form token encoding. -/
theorem short_bytes_eq (len dist : Nat) (h3 : 3 ≤ len) (h17 : len < 18)
    (h1 : 1 ≤ dist) (h2 : dist ≤ 4096) :
    [(((((len + 4294967294) % 4294967296) <<< 12) % 4294967296 ||| (dist - 1)) % 65536) >>> 8,
      ((((len + 4294967294) % 4294967296) <<< 12) % 4294967296 ||| (dist - 1)) % 65536 &&& 255] =
      tokenBytes (Tok.mtch len dist) := by
  have hw : (len + 4294967294) % 4294967296 = len - 2 := by omega
  rw [hw, Nat.shiftLeft_eq]
  have hsh : (len - 2) * 2 ^ 12 % 4294967296 = (len - 2) * 4096 := by
    rw [Nat.mod_eq_of_lt (by omega)]
    norm_num
  rw [hsh]
  have hor : (len - 2) * 4096 ||| (dist - 1) = (len - 2) * 4096 + (dist - 1) := by
    apply lor_eq_add 12
    · omega
    · exact ⟨len - 2, by ring⟩
  rw [hor, Nat.mod_eq_of_lt (by omega)]
  rw [tokenBytes, if_pos h17]
  rw [Nat.shiftRight_eq_div_pow, and_255]
  have e1 : ((len - 2) * 4096 + (dist - 1)) / 2 ^ 8 = (len - 2) * 16 + (dist - 1) / 256 := by
    norm_num
    omega
  have e2 : ((len - 2) * 4096 + (dist - 1)) % 256 = (dist - 1) % 256 := by omega
  rw [e1, e2]

/-- The chunking loop of `writer_emit_match` appends one long-form token
per chunk. -/
theorem emitMatchChunks_writerOf (len : Nat) : ∀ (ts : List Tok) (dist : Nat),
    1 ≤ dist → dist ≤ 4096 →
    (emitMatchChunks (writerOf ts) len (dist - 1)).1 =
      writerOf (ts ++ (matchChunks len).dropLast.map (fun c => Tok.mtch c dist)) := by
  induction len using Nat.strong_induction_on with
  | _ len ih =>
    intro ts dist h1 h2
    rw [emitMatchChunks, matchChunks]
    by_cases hgt : len > 273
    · rw [dif_pos hgt, dif_pos hgt]
      have hcs := matchChunkSize_cases len
      have hbytes := chunk_bytes_eq (matchChunkSize len) dist
        (by rcases hcs with h | h <;> omega) (by rcases hcs with h | h <;> omega) h1 h2
      have hne : matchChunks (len - matchChunkSize len) ≠ [] := by
        rw [matchChunks]
        split <;> simp
      rw [List.dropLast_cons_of_ne_nil hne, List.map_cons]
      dsimp only
      rw [hbytes]
      rw [writer_match_step ts (matchChunkSize len) dist]
      rw [ih (len - matchChunkSize len) (by rcases hcs with h | h <;> omega)
        (ts ++ [Tok.mtch (matchChunkSize len) dist]) dist h1 h2]
      simp [List.append_assoc]
    · rw [dif_neg hgt, dif_neg hgt]
      simp

/-- `writer_emit_match` at the representation level: it appends exactly
the chunk tokens of the match. -/
theorem writer_emit_match_writerOf (ts : List Tok) (len dist : Nat)
    (h3 : 3 ≤ len) (h1 : 1 ≤ dist) (h2 : dist ≤ 4096) :
    writer_emit_match (writerOf ts) len dist =
      writerOf (ts ++ (matchChunks len).map (fun c => Tok.mtch c dist)) := by
  have hd1 : (dist + 4294967295) % 4294967296 = dist - 1 := by omega
  have hfin := emitMatchChunks_final (writerOf ts) len (dist - 1)
  have hmem := matchChunks_mem len h3
  have hlast : (emitMatchChunks (writerOf ts) len (dist - 1)).2 ∈ matchChunks len := by
    rw [hfin]
    simp
  obtain ⟨hl3, hl273⟩ := hmem _ hlast
  have hEMC := emitMatchChunks_writerOf len ts dist h1 h2
  have hmap : (matchChunks len).map (fun c => Tok.mtch c dist) =
      (matchChunks len).dropLast.map (fun c => Tok.mtch c dist) ++
        [Tok.mtch (emitMatchChunks (writerOf ts) len (dist - 1)).2 dist] := by
    conv_lhs => rw [hfin]
    rw [List.map_append]
    rfl
  rw [writer_emit_match]
  dsimp only
  rw [hd1, hEMC, hmap, ← List.append_assoc]
  by_cases h18 : (emitMatchChunks (writerOf ts) len (dist - 1)).2 < 18
  · rw [if_pos h18]
    dsimp only
    rw [short_bytes_eq _ dist hl3 h18 h1 h2]
    exact writer_match_step _ _ dist
  · rw [if_neg h18]
    dsimp only
    rw [chunk_bytes_eq _ dist (by omega) hl273 h1 h2]
    exact writer_match_step _ _ dist

/-! ### Literal emission at the representation level -/

theorem set_append_cons (A : List Nat) (c : Nat) (B : List Nat) (v : Nat) :
    (A ++ c :: B).set A.length v = A ++ v :: B := by
  induction A with
  | nil => rfl
  | cons a A ih =>
    simp only [List.cons_append, List.length_cons, List.set_cons_succ, ih]

theorem getD_append_cons (A : List Nat) (c : Nat) (B : List Nat) :
    (A ++ c :: B).getD A.length 0 = c := by
  induction A with
  | nil => rfl
  | cons a A ih =>
    simp only [List.cons_append, List.length_cons, List.getD_cons_succ, ih]

/-- The tokens of a run of `n` literals taken from `x` at `src`. -/
def litToks (x : List Nat) (src n : Nat) : List Tok :=
  ((x.drop src).take n).map Tok.lit

theorem litToks_length (x : List Nat) (src n : Nat) (h : src + n ≤ x.length) :
    (litToks x src n).length = n := by
  rw [litToks, List.length_map, List.length_take, List.length_drop]
  omega

theorem litToks_split (x : List Nat) (src n k : Nat) (hk : k ≤ n) :
    litToks x src n = litToks x src k ++ litToks x (src + k) (n - k) := by
  rw [litToks, litToks, litToks, ← List.map_append]
  congr 1
  conv_lhs => rw [show n = k + (n - k) by omega]
  rw [List.take_add, List.drop_drop]

/-- Effect of the flag-bit loop on the writer: with `n ≥ 1` bits to set
from mask `2 ^ j`, the flag byte gains the bits `2^j + ... + 2^(j+1-n)`. -/
theorem setFlagBits_out_val : ∀ (n j : Nat) (w : Yaz0Writer) (v : Nat),
    1 ≤ n → w.mask = 2 ^ j → n ≤ j + 1 → w.flagp < w.out.length →
    w.out.getD w.flagp 0 = v → 2 ^ (j + 1) ∣ v →
    (setFlagBits w n).out = w.out.set w.flagp (v + (2 ^ (j + 1) - 2 ^ (j + 1 - n))) := by
  intro n
  induction n with
  | zero => omega
  | succ n ih =>
    intro j w v hn1 hm hn hfp hv hdvd
    rw [setFlagBits]
    have hor : w.out.getD w.flagp 0 ||| w.mask = v + 2 ^ j := by
      rw [hv, hm]
      exact lor_eq_add (j + 1) _ _ (by
        have : (2 : Nat) ^ j < 2 ^ (j + 1) := Nat.pow_lt_pow_right (by omega) (by omega)
        omega) hdvd
    rcases Nat.eq_zero_or_pos n with hn0 | hnpos
    · subst hn0
      rw [setFlagBits, hor]
      have e : v + 2 ^ j = v + (2 ^ (j + 1) - 2 ^ (j + 1 - 1)) := by
        have e1 : 2 ^ (j + 1 - 1) = 2 ^ j := by
          norm_num
        have e2 : (2 : Nat) ^ (j + 1) = 2 * 2 ^ j := by
          rw [pow_succ]
          ring
        omega
      rw [← e]
    · have hj1 : 1 ≤ j := by omega
      have hmask2 : (w.mask >>> 1) = 2 ^ (j - 1) := by
        rw [hm, Nat.shiftRight_eq_div_pow]
        rw [show j = (j - 1) + 1 by omega, pow_succ]
        simp
      have hrec := ih (j - 1)
        ⟨w.out.set w.flagp (w.out.getD w.flagp 0 ||| w.mask), w.flagp, w.mask >>> 1⟩
        (v + 2 ^ j) hnpos hmask2 (by omega) (by simpa using hfp)
        (by
          dsimp only
          rw [hor, List.getD_eq_getElem _ _ (by simpa using hfp)]
          exact List.getElem_set_self _)
        (by
          have : (2 : Nat) ^ (j - 1 + 1) = 2 ^ j := by
            congr 1
            omega
          rw [this]
          apply Nat.dvd_add
          · exact Dvd.dvd.trans (pow_dvd_pow 2 (by omega)) hdvd
          · exact dvd_refl _)
      rw [hrec]
      dsimp only
      rw [hor, List.set_set]
      congr 1
      have e1 : (2 : Nat) ^ (j - 1 + 1) = 2 ^ j := by
        congr 1
        omega
      have e2 : j - 1 + 1 - n = j + 1 - (n + 1) := by omega
      rw [e1, e2]
      have h3 : 2 ^ (j + 1 - (n + 1)) ≤ 2 ^ j := Nat.pow_le_pow_right (by omega) (by omega)
      have h4 : (2 : Nat) ^ (j + 1) = 2 * 2 ^ j := by
        rw [pow_succ]
        ring
      omega

theorem litToks_nil (x : List Nat) (src : Nat) : litToks x src 0 = [] := by
  rw [litToks, List.take_zero, List.map_nil]

theorem lit_flag_byte (m : Nat) (h1 : 1 ≤ m) (h7 : m ≤ 7) :
    (255 <<< (8 - m)) % 256 = 256 - 2 ^ (8 - m) := by
  interval_cases m <;> decide

theorem flagVal_lits8 (bs : List Nat) (h : bs.length = 8) :
    flagVal (bs.map Tok.lit) 128 = 255 := by
  have hv := flagVal_lits bs 7 (by omega)
  rw [show (128 : Nat) = 2 ^ 7 by norm_num, hv, h]
  decide

/-- Phases 2-3 of `writer_emit_literals`, started at a group boundary,
append exactly the literal tokens to the represented stream. -/
theorem emitLitsRest_writerOf (m : Nat) : ∀ (ts : List Tok) (x : List Nat) (src : Nat),
    ts.length % 8 = 0 → src + m ≤ x.length →
    emitLitsRest (writerOf ts) m x src = writerOf (ts ++ litToks x src m) := by
  induction m using Nat.strong_induction_on with
  | _ m ih =>
    intro ts x src hal hsrc
    have hW := writerOf_aligned ts hal
    rw [emitLitsRest]
    by_cases h8 : m ≥ 8
    · rw [dif_pos h8, hW]
      dsimp only
      rw [writer_new_group]
      dsimp only
      have hg8 : (litToks x src 8).length = 8 := litToks_length x src 8 (by omega)
      have hfv : flagVal (litToks x src 8) 128 = 255 := by
        rw [litToks]
        exact flagVal_lits8 _ (by simpa [litToks] using hg8)
      have htb : tokensBytes (litToks x src 8) = (x.drop src).take 8 := by
        rw [litToks, tokensBytes_lits]
      have hser : serializeFull (ts ++ litToks x src 8) =
          serializeFull ts ++ 255 :: (x.drop src).take 8 := by
        rw [serializeFull_aligned_append ts _ hal,
          serializeFull_small (litToks x src 8) (by
            intro hcon
            rw [hcon] at hg8
            simp at hg8) (by omega), hfv, htb]
      have hkey : (serializeFull ts ++ [0]).set (serializeFull ts).length 255 ++
          (x.drop src).take 8 = serializeFull (ts ++ litToks x src 8) := by
        rw [set_append_cons (serializeFull ts) 0 [] 255, hser, List.append_assoc]
        rfl
      rw [hkey]
      have hlen2 : (ts ++ litToks x src 8).length % 8 = 0 := by
        rw [List.length_append, hg8]
        omega
      have hWg := writerOf_aligned (ts ++ litToks x src 8) hlen2
      have hrec := ih (m - 8) (by omega) (ts ++ litToks x src 8) x (src + 8)
        hlen2 (by omega)
      rw [hWg] at hrec
      rw [hrec, List.append_assoc, ← litToks_split x src m 8 (by omega)]
    · rw [dif_neg h8]
      by_cases hm0 : m = 0
      · subst hm0
        rw [if_neg (by simp), litToks_nil, List.append_nil]
      · rw [if_pos hm0, hW]
        dsimp only
        rw [getD_append_cons (serializeFull ts) 0 [], Nat.zero_or,
          lit_flag_byte m (by omega) (by omega),
          set_append_cons (serializeFull ts) 0 [] (256 - 2 ^ (8 - m))]
        have hlslen : (litToks x src m).length = m := litToks_length x src m (by omega)
        have hmod : (ts ++ litToks x src m).length % 8 = m := by
          rw [List.length_append, hlslen]
          omega
        rw [writerOf_midgroup (ts ++ litToks x src m) (by omega)]
        have hidx : 8 * ((ts ++ litToks x src m).length / 8) = ts.length := by
          rw [List.length_append, hlslen]
          omega
        rw [hidx, List.take_left, List.drop_left]
        have hfv : flagVal (litToks x src m) 128 = 256 - 2 ^ (8 - m) := by
          have hv := flagVal_lits ((x.drop src).take m) 7 (by
            have := hlslen
            rw [litToks, List.length_map] at this
            omega)
          rw [litToks, show (128 : Nat) = 2 ^ 7 by norm_num, hv]
          have hl : ((x.drop src).take m).length = m := by
            have := hlslen
            rw [litToks, List.length_map] at this
            exact this
          rw [hl]
          norm_num
        have htb : tokensBytes (litToks x src m) = (x.drop src).take m := by
          rw [litToks, tokensBytes_lits]
        rw [hmod, hfv, htb]
        rw [List.append_assoc]
        rfl

/-- Setting `n` flag bits on a writer mid-group (`ts.length % 8` tokens
already in the group): the flag byte gains the next `n` bits. -/
theorem setFlagBits_writerOf (ts : List Tok) (n : Nat) (hal : ts.length % 8 ≠ 0)
    (hn1 : 1 ≤ n) (hn : n ≤ 8 - ts.length % 8) :
    setFlagBits (writerOf ts) n =
      ⟨serializeFull (ts.take (8 * (ts.length / 8))) ++
          (flagVal (ts.drop (8 * (ts.length / 8))) 128 +
            (2 ^ (8 - ts.length % 8) - 2 ^ (8 - ts.length % 8 - n))) ::
            tokensBytes (ts.drop (8 * (ts.length / 8))),
        (serializeFull (ts.take (8 * (ts.length / 8)))).length,
        128 >>> (ts.length % 8 + n)⟩ := by
  have hr1 : 1 ≤ ts.length % 8 := by omega
  have hr7 : ts.length % 8 ≤ 7 := by omega
  have hW := writerOf_midgroup ts hal
  have hmaskW : (writerOf ts).mask = 2 ^ (7 - ts.length % 8) := by
    rw [hW]
    exact shift128 _ hr7
  have hnj : n ≤ 7 - ts.length % 8 + 1 := by omega
  have hfplt : (writerOf ts).flagp < (writerOf ts).out.length := by
    rw [hW]
    simp only [List.length_append, List.length_cons]
    omega
  have hgetD : (writerOf ts).out.getD (writerOf ts).flagp 0 =
      flagVal (ts.drop (8 * (ts.length / 8))) 128 := by
    rw [hW]
    exact getD_append_cons _ _ _
  have hdvdf : 2 ^ (7 - ts.length % 8 + 1) ∣
      flagVal (ts.drop (8 * (ts.length / 8))) 128 := by
    have hd := flagVal_dvd (ts.drop (8 * (ts.length / 8))) 7
      (by rw [writerOf_part_length]; omega)
    rw [writerOf_part_length] at hd
    have e1 : (2 : Nat) ^ (7 - ts.length % 8 + 1) = 2 ^ (7 + 1 - ts.length % 8) := by
      congr 1
      omega
    rw [e1]
    rw [show (128 : Nat) = 2 ^ 7 by norm_num]
    exact hd
  have hout := setFlagBits_out_val n (7 - ts.length % 8) (writerOf ts)
    (flagVal (ts.drop (8 * (ts.length / 8))) 128)
    hn1 hmaskW hnj hfplt hgetD hdvdf
  have hspec := setFlagBits_spec n (writerOf ts)
  have e2 : (2 : Nat) ^ (7 - ts.length % 8 + 1) = 2 ^ (8 - ts.length % 8) := by
    congr 1
    omega
  have e3 : (2 : Nat) ^ (7 - ts.length % 8 + 1 - n) = 2 ^ (8 - ts.length % 8 - n) := by
    congr 1
    omega
  rw [e2, e3] at hout
  have hmask : (setFlagBits (writerOf ts) n).mask = 128 >>> (ts.length % 8 + n) := by
    rw [hspec.2.1, hW]
    dsimp only
    exact (Nat.shiftRight_add 128 _ n).symm
  have hflagp : (setFlagBits (writerOf ts) n).flagp =
      (serializeFull (ts.take (8 * (ts.length / 8)))).length := by
    rw [hspec.1, hW]
  have houtv : (setFlagBits (writerOf ts) n).out =
      serializeFull (ts.take (8 * (ts.length / 8))) ++
        (flagVal (ts.drop (8 * (ts.length / 8))) 128 +
          (2 ^ (8 - ts.length % 8) - 2 ^ (8 - ts.length % 8 - n))) ::
          tokensBytes (ts.drop (8 * (ts.length / 8))) := by
    rw [hout, hW]
    dsimp only
    exact set_append_cons _ _ _ _
  have heta : setFlagBits (writerOf ts) n =
      ⟨(setFlagBits (writerOf ts) n).out, (setFlagBits (writerOf ts) n).flagp,
        (setFlagBits (writerOf ts) n).mask⟩ := rfl
  rw [heta, houtv, hflagp, hmask]

/-- Flag value of the partial group extended by `n` literal tokens. -/
theorem flagVal_part_lits (ts : List Tok) (x : List Nat) (src n : Nat)
    (hal : ts.length % 8 ≠ 0) (hn : n ≤ 8 - ts.length % 8) (hsrc : src + n ≤ x.length) :
    flagVal (ts.drop (8 * (ts.length / 8)) ++ litToks x src n) 128 =
      flagVal (ts.drop (8 * (ts.length / 8))) 128 +
        (2 ^ (8 - ts.length % 8) - 2 ^ (8 - ts.length % 8 - n)) := by
  rw [flagVal_append, writerOf_part_length]
  congr 1
  have hdiv : (128 : Nat) / 2 ^ (ts.length % 8) = 2 ^ (7 - ts.length % 8) := by
    rw [show (128 : Nat) = 2 ^ 7 by norm_num, Nat.pow_div (by omega) (by omega)]
  have hl : ((x.drop src).take n).length = n := by
    simp only [List.length_take, List.length_drop]
    omega
  rw [litToks, hdiv, flagVal_lits _ (7 - ts.length % 8) (by omega), hl]
  have e1 : 7 - ts.length % 8 + 1 = 8 - ts.length % 8 := by omega
  rw [e1]

/-- Phase 1 of `writer_emit_literals` together with phases 2-3: emitting
`n` literal bytes appends exactly the `n` literal tokens to the
represented token stream, whatever the current group state. -/
theorem writer_emit_literals_writerOf (ts : List Tok) (n : Nat) (x : List Nat) (src : Nat)
    (hsrc : src + n ≤ x.length) :
    writer_emit_literals (writerOf ts) n x src = writerOf (ts ++ litToks x src n) := by
  rw [writer_emit_literals]
  by_cases hn0 : n = 0
  · subst hn0
    rw [if_pos rfl, litToks_nil, List.append_nil]
  · rw [if_neg hn0]
    by_cases hal : ts.length % 8 = 0
    · rw [if_neg (by rw [writerOf_aligned ts hal]; simp)]
      exact emitLitsRest_writerOf n ts x src hal hsrc
    · have hr1 : 1 ≤ ts.length % 8 := by omega
      have hr7 : ts.length % 8 ≤ 7 := by omega
      have hW := writerOf_midgroup ts hal
      have hmaskW : (writerOf ts).mask = 128 >>> (ts.length % 8) := by rw [hW]
      have hmaskne : (writerOf ts).mask ≠ 128 := by
        rw [hmaskW, shift128 _ hr7]
        have hle : (2 : Nat) ^ (7 - ts.length % 8) ≤ 2 ^ 6 :=
          Nat.pow_le_pow_right (by omega) (by omega)
        omega
      rw [if_pos hmaskne]
      dsimp only
      have hroom : ctz (writerOf ts).mask + 1 = 8 - ts.length % 8 := by
        rw [hmaskW, ctz_shift128 _ hr7]
        omega
      rw [hroom]
      have hfull_le : 8 * (ts.length / 8) ≤ ts.length := by omega
      by_cases hlt : n < 8 - ts.length % 8
      · rw [if_pos hlt]
        rw [setFlagBits_writerOf ts n hal (by omega) (by omega)]
        dsimp only
        have hlslen : (litToks x src n).length = n := litToks_length x src n hsrc
        have hmod : (ts ++ litToks x src n).length % 8 = ts.length % 8 + n := by
          rw [List.length_append, hlslen]
          omega
        rw [writerOf_midgroup (ts ++ litToks x src n) (by omega)]
        have hidx2 : 8 * ((ts ++ litToks x src n).length / 8) = 8 * (ts.length / 8) := by
          rw [List.length_append, hlslen]
          omega
        rw [hidx2, List.take_append_of_le_length hfull_le,
          List.drop_append_of_le_length hfull_le,
          flagVal_part_lits ts x src n hal (by omega) hsrc,
          tokensBytes_append, hmod, litToks, tokensBytes_lits,
          List.append_assoc]
        rfl
      · rw [if_neg hlt]
        rw [setFlagBits_writerOf ts (8 - ts.length % 8) hal (by omega) (by omega)]
        rw [writer_new_group]
        dsimp only
        have hls8len : (litToks x src (8 - ts.length % 8)).length = 8 - ts.length % 8 :=
          litToks_length x src _ (by omega)
        have hassoc : ts.take (8 * (ts.length / 8)) ++
            (ts.drop (8 * (ts.length / 8)) ++ litToks x src (8 - ts.length % 8)) =
            ts ++ litToks x src (8 - ts.length % 8) := by
          rw [← List.append_assoc, List.take_append_drop]
        have hne : ts.drop (8 * (ts.length / 8)) ++ litToks x src (8 - ts.length % 8) ≠ [] := by
          intro hcon
          have hlc := congrArg List.length hcon
          rw [List.length_append, writerOf_part_length, hls8len] at hlc
          simp only [List.length_nil] at hlc
          omega
        have h8len : (ts.drop (8 * (ts.length / 8)) ++
            litToks x src (8 - ts.length % 8)).length ≤ 8 := by
          rw [List.length_append, writerOf_part_length, hls8len]
          omega
        have hser : serializeFull (ts ++ litToks x src (8 - ts.length % 8)) =
            serializeFull (ts.take (8 * (ts.length / 8))) ++
              (flagVal (ts.drop (8 * (ts.length / 8))) 128 +
                (2 ^ (8 - ts.length % 8) -
                  2 ^ (8 - ts.length % 8 - (8 - ts.length % 8)))) ::
                (tokensBytes (ts.drop (8 * (ts.length / 8))) ++
                  (x.drop src).take (8 - ts.length % 8)) := by
          rw [← hassoc, serializeFull_aligned_append _ _ (writerOf_full_aligned ts),
            serializeFull_small _ hne h8len,
            flagVal_part_lits ts x src _ hal (by omega) (by omega),
            tokensBytes_append, litToks, tokensBytes_lits]
        have hkey : (serializeFull (ts.take (8 * (ts.length / 8))) ++
            (flagVal (ts.drop (8 * (ts.length / 8))) 128 +
              (2 ^ (8 - ts.length % 8) -
                2 ^ (8 - ts.length % 8 - (8 - ts.length % 8)))) ::
              tokensBytes (ts.drop (8 * (ts.length / 8)))) ++
              (x.drop src).take (8 - ts.length % 8) =
            serializeFull (ts ++ litToks x src (8 - ts.length % 8)) := by
          rw [hser, List.append_assoc]
          rfl
        rw [hkey]
        have hal2 : (ts ++ litToks x src (8 - ts.length % 8)).length % 8 = 0 := by
          rw [List.length_append, hls8len]
          omega
        rw [← writerOf_aligned _ hal2]
        rw [emitLitsRest_writerOf (n - (8 - ts.length % 8))
          (ts ++ litToks x src (8 - ts.length % 8)) x
          (src + (8 - ts.length % 8)) hal2 (by omega)]
        rw [List.append_assoc, ← litToks_split x src n (8 - ts.length % 8) (by omega)]

/-! ### Extraction of the byte equalities certified by `compare_match` -/

/-- The byte loop advances at most to the limit. -/
theorem cmLoop_le (x : List Nat) (limit : Nat) : ∀ (p q : Nat),
    cmLoop x limit p q ≤ limit - q := by
  suffices hfu : ∀ (n p q : Nat), limit - q = n → cmLoop x limit p q ≤ limit - q by
    intro p q
    exact hfu (limit - q) p q rfl
  intro n
  induction n using Nat.strong_induction_on with
  | _ n ih =>
    intro p q hn
    rw [cmLoop]
    split
    · rename_i hc
      have hrec := ih (limit - (q + 1)) (by omega) (p + 1) (q + 1) rfl
      omega
    · omega

/-- Every byte counted by the byte loop matches. -/
theorem cmLoop_bytes (x : List Nat) (limit : Nat) : ∀ (p q i : Nat),
    i < cmLoop x limit p q → x.getD (p + i) 0 = x.getD (q + i) 0 := by
  suffices hfu : ∀ (n p q : Nat), limit - q = n →
      ∀ i, i < cmLoop x limit p q → x.getD (p + i) 0 = x.getD (q + i) 0 by
    intro p q i
    exact hfu (limit - q) p q rfl i
  intro n
  induction n using Nat.strong_induction_on with
  | _ n ih =>
    intro p q hn i hi
    rw [cmLoop] at hi
    revert hi
    split
    · rename_i hc
      intro hi
      rcases Nat.eq_zero_or_pos i with hz | hpos
      · subst hz
        simpa using hc.2
      · have hrec := ih (limit - (q + 1)) (by omega) (p + 1) (q + 1) rfl (i - 1)
          (by omega)
        have e1 : p + 1 + (i - 1) = p + i := by omega
        have e2 : q + 1 + (i - 1) = q + i := by omega
        rw [e1, e2] at hrec
        exact hrec
    · intro hi
      omega

/-- Every byte counted by the word-at-a-time `compare_match` matches. -/
theorem compare_match_bytes (x : List Nat) (hx : ∀ b ∈ x, b < 256) (p q limit : Nat) :
    ∀ i < compare_match x p q limit, x.getD (p + i) 0 = x.getD (q + i) 0 := by
  intro i hi
  rw [compare_match] at hi
  revert hi
  split
  · rename_i hw
    intro hi
    rcases Nat.lt_or_ge i 4 with h4 | h4
    · exact read_u32_inj x hx p q hw i h4
    · have hrec := cmLoop_bytes x limit (p + 4) (q + 4) (i - 4) (by omega)
      have e1 : p + 4 + (i - 4) = p + i := by omega
      have e2 : q + 4 + (i - 4) = q + i := by omega
      rw [e1, e2] at hrec
      exact hrec
  · intro hi
    exact cmLoop_bytes x limit p q i hi

/-- With at least 4 bytes of room, `compare_match` stays within the limit. -/
theorem compare_match_le (x : List Nat) (p q limit : Nat) (hq4 : q + 4 ≤ limit) :
    compare_match x p q limit ≤ limit - q := by
  rw [compare_match]
  split
  · have h1 := cmLoop_le x limit (p + 4) (q + 4)
    omega
  · exact cmLoop_le x limit p q

/-- Equality of the masked 24-bit fingerprints forces the three underlying
bytes to agree. -/
theorem read_u24_inj (x : List Nat) (hx : ∀ b ∈ x, b < 256) (p q : Nat)
    (h : read_u32 x p &&& 16777215 = read_u32 x q &&& 16777215) :
    ∀ i < 3, x.getD (p + i) 0 = x.getD (q + i) 0 := by
  rw [and_mask24, and_mask24, read_u32_eq x hx p, read_u32_eq x hx q] at h
  have h0 := getD_lt_256 x hx p
  have h1 := getD_lt_256 x hx (p + 1)
  have h2 := getD_lt_256 x hx (p + 2)
  have h3 := getD_lt_256 x hx (p + 3)
  have k0 := getD_lt_256 x hx q
  have k1 := getD_lt_256 x hx (q + 1)
  have k2 := getD_lt_256 x hx (q + 2)
  have k3 := getD_lt_256 x hx (q + 3)
  intro i hi
  interval_cases i <;>
    (first
      | simp only [Nat.add_zero]
      | skip) <;>
    omega

/-! ### Sequential copy of a self-overlapping match reproduces the source -/

/-- Pushing the next source byte onto a prefix. -/
theorem take_push (x : List Nat) (pos : Nat) (h : pos < x.length) :
    x.take pos ++ [x.getD pos 0] = x.take (pos + 1) := by
  rw [List.take_succ, List.getElem?_eq_getElem h, List.getD_eq_getElem _ _ h]
  rfl

/-- The decoder's byte-at-a-time overlapped copy extends a prefix of `x`
to a longer prefix of `x` whenever the source certifies the byte
equalities `x[pos - d + i] = x[pos + i]`. -/
theorem seqCopy_take (x : List Nat) (d : Nat) (hd1 : 1 ≤ d) : ∀ (len pos : Nat),
    d ≤ pos → pos + len ≤ x.length →
    (∀ i < len, x.getD (pos - d + i) 0 = x.getD (pos + i) 0) →
    seqCopy (x.take pos) d len = x.take (pos + len) := by
  intro len
  induction len with
  | zero =>
    intro pos hdp hle hcopy
    rw [seqCopy, Nat.add_zero]
  | succ len ih =>
    intro pos hdp hle hcopy
    rw [seqCopy]
    have hlt : (x.take pos).length = pos := by
      rw [List.length_take]
      omega
    have hgd : (x.take pos).getD ((x.take pos).length - d) 0 = x.getD pos 0 := by
      rw [hlt, getD_take x pos (pos - d) (by omega)]
      have h0 := hcopy 0 (by omega)
      simpa using h0
    rw [hgd, take_push x pos (by omega)]
    have hrec := ih (pos + 1) (by omega) (by omega) (fun i hi => by
      have hcp := hcopy (i + 1) (by omega)
      have e1 : pos - d + (i + 1) = pos + 1 - d + i := by omega
      have e2 : pos + (i + 1) = pos + 1 + i := by omega
      rw [e1, e2] at hcp
      exact hcp)
    rw [hrec]
    congr 1
    omega

/-! ### Reading the serialized stream through the source buffer -/

/-- Dropping past a known chunk of the stream. -/
theorem drop_shift (y a b : List Nat) (src : Nat) (h : y.drop src = a ++ b) :
    y.drop (src + a.length) = b := by
  have h1 : y.drop (src + a.length) = (y.drop src).drop a.length :=
    (List.drop_drop _ _ _).symm
  rw [h1, h, List.drop_left]

/-- Reading a byte inside a known chunk of the stream. -/
theorem getD_of_drop (y a b : List Nat) (src i : Nat) (h : y.drop src = a ++ b)
    (hi : i < a.length) :
    y.getD (src + i) 0 = a.getD i 0 := by
  have hlen : (y.drop src).length = a.length + b.length := by
    rw [h, List.length_append]
  rw [List.length_drop] at hlen
  have htl : (y.take src).length = src := by
    rw [List.length_take]
    omega
  conv_lhs => rw [show y = y.take src ++ y.drop src from (List.take_append_drop src y).symm]
  rw [List.getD_append_right _ _ _ _ (by omega), htl, Nat.add_sub_cancel_left, h,
    List.getD_append _ _ _ _ hi]

/-- The length of the stream past a known chunk. -/
theorem drop_len_ge (y a b : List Nat) (src : Nat) (h : y.drop src = a ++ b)
    (hne : a ≠ []) : src + a.length ≤ y.length := by
  have hlen : (y.drop src).length = a.length + b.length := by
    rw [h, List.length_append]
  rw [List.length_drop] at hlen
  have hpos : 0 < a.length := List.length_pos.mpr hne
  omega

/-! ### Flag register arithmetic -/

set_option maxRecDepth 4096 in
theorem and_128_lt : ∀ f : Nat, f < 256 → f &&& 128 = if 128 ≤ f then 128 else 0 := by
  decide

/-- Doubling the starting mask doubles the flag value while no bit falls
off the bottom. -/
theorem flagVal_double (ts : List Tok) : ∀ j, ts.length ≤ j + 1 →
    flagVal ts (2 ^ (j + 1)) = 2 * flagVal ts (2 ^ j) := by
  induction ts with
  | nil =>
    intro j hj
    rw [flagVal, flagVal]
  | cons t ts ih =>
    intro j hj
    rw [flagVal, flagVal]
    have hdiv1 : 2 ^ (j + 1) / 2 = 2 ^ j := by
      rw [pow_succ]
      simp
    rw [hdiv1]
    rcases Nat.eq_zero_or_pos j with hz | hpos
    · subst hz
      have hts : ts = [] := by
        simp only [List.length_cons] at hj
        exact List.length_eq_zero.mp (by omega)
      subst hts
      by_cases hl : isLit t <;> simp [flagVal, hl]
    · have hdiv2 : 2 ^ j / 2 = 2 ^ (j - 1) := by
        rw [show j = (j - 1) + 1 by omega, pow_succ]
        simp
      rw [hdiv2]
      have hrec := ih (j - 1) (by simp only [List.length_cons] at hj; omega)
      rw [show j - 1 + 1 = j by omega] at hrec
      rw [hrec]
      split <;> [rw [pow_succ]; skip] <;> omega

/-- Consuming one token shifts the flag register to the next token's
flag value. -/
theorem flag_shift (t : Tok) (g : List Tok) (hg : (t :: g).length ≤ 8) :
    (flagVal (t :: g) 128 <<< 1) % 256 = flagVal g 128 := by
  rw [flagVal]
  have h64 : (128 : Nat) / 2 = 64 := by norm_num
  rw [h64]
  have hdbl : flagVal g 128 = 2 * flagVal g 64 := by
    have hh := flagVal_double g 6 (by simp only [List.length_cons] at hg; omega)
    have e : (2 : Nat) ^ 6 = 64 := by norm_num
    have e2 : (2 : Nat) ^ (6 + 1) = 128 := by norm_num
    rw [e, e2] at hh
    exact hh
  have hlt : flagVal g 64 < 128 := by
    have hh := flagVal_lt g 6
    have e : (2 : Nat) ^ 6 = 64 := by norm_num
    have e2 : (2 : Nat) ^ (6 + 1) = 128 := by norm_num
    rw [e, e2] at hh
    exact hh
  rw [Nat.shiftLeft_eq, pow_one, hdbl]
  split <;> omega

/-- The top flag bit selects the literal branch exactly for literals. -/
theorem flag_top_bit (t : Tok) (g : List Tok) :
    flagVal (t :: g) 128 &&& 128 = if isLit t then 128 else 0 := by
  have hlt : flagVal (t :: g) 128 < 256 := flagVal_lt_256 _
  rw [and_128_lt _ hlt]
  rw [flagVal]
  have h64 : (128 : Nat) / 2 = 64 := by norm_num
  rw [h64]
  have hlt2 : flagVal g 64 < 128 := by
    have hh := flagVal_lt g 6
    have e : (2 : Nat) ^ 6 = 64 := by norm_num
    have e2 : (2 : Nat) ^ (6 + 1) = 128 := by norm_num
    rw [e, e2] at hh
    exact hh
  by_cases hil : isLit t = true
  · simp only [if_pos hil]
    rw [if_pos (by omega : (128 : Nat) ≤ 128 + flagVal g 64)]
  · simp only [if_neg hil]
    rw [if_neg (by omega : ¬ (128 : Nat) ≤ 0 + flagVal g 64)]

/-! ### Semantic well-formedness of tokens against the source data -/

/-- One token is good at output position `pos`: a literal carries the
source byte there; a match lies in the encodable ranges, reaches back
into the already-produced output, and all its copied bytes agree with
the source (the self-overlapping-copy semantics). -/
def TokGood (x : List Nat) (pos : Nat) : Tok → Prop
  | .lit b => pos < x.length ∧ b = x.getD pos 0
  | .mtch len d => 3 ≤ len ∧ len ≤ 273 ∧ 1 ≤ d ∧ d ≤ 4096 ∧ d ≤ pos ∧
      pos + len ≤ x.length ∧
      ∀ i < len, x.getD (pos - d + i) 0 = x.getD (pos + i) 0

/-- A token list is good from output position `pos` onwards. -/
def GoodToks (x : List Nat) : Nat → List Tok → Prop
  | _, [] => True
  | pos, t :: ts => TokGood x pos t ∧ GoodToks x (pos + tokLen t) ts

theorem sumTokLens_nil : sumTokLens [] = 0 := rfl

theorem sumTokLens_cons (t : Tok) (ts : List Tok) :
    sumTokLens (t :: ts) = tokLen t + sumTokLens ts := by
  rw [sumTokLens, sumTokLens, List.map_cons, List.sum_cons]

theorem sumTokLens_append (a b : List Tok) :
    sumTokLens (a ++ b) = sumTokLens a + sumTokLens b := by
  rw [sumTokLens, sumTokLens, sumTokLens, List.map_append, List.sum_append]

theorem GoodToks_append (x : List Nat) (a b : List Tok) : ∀ pos,
    GoodToks x pos (a ++ b) ↔
      GoodToks x pos a ∧ GoodToks x (pos + sumTokLens a) b := by
  induction a with
  | nil =>
    intro pos
    simp [GoodToks, sumTokLens_nil]
  | cons t a ih =>
    intro pos
    rw [List.cons_append, GoodToks, GoodToks, ih (pos + tokLen t), sumTokLens_cons]
    rw [show pos + tokLen t + sumTokLens a = pos + (tokLen t + sumTokLens a) by omega]
    tauto

theorem litToks_cons (x : List Nat) (src n : Nat) (h : src < x.length) :
    litToks x src (n + 1) = Tok.lit (x.getD src 0) :: litToks x (src + 1) n := by
  rw [litToks, litToks, List.drop_eq_getElem_cons h, List.take_succ_cons, List.map_cons]
  rw [List.getD_eq_getElem _ _ h]

theorem sumTokLens_lits (bs : List Nat) : sumTokLens (bs.map Tok.lit) = bs.length := by
  induction bs with
  | nil => rfl
  | cons b bs ih =>
    rw [List.map_cons, sumTokLens_cons, ih, tokLen, List.length_cons]
    omega

theorem sumTokLens_litToks (x : List Nat) (src n : Nat) (h : src + n ≤ x.length) :
    sumTokLens (litToks x src n) = n := by
  rw [litToks, sumTokLens_lits]
  rw [List.length_take, List.length_drop]
  omega

/-- A run of literals copied from the source is good. -/
theorem GoodToks_lits (x : List Nat) : ∀ (n src : Nat), src + n ≤ x.length →
    GoodToks x src (litToks x src n) := by
  intro n
  induction n with
  | zero =>
    intro src h
    rw [litToks_nil]
    trivial
  | succ n ih =>
    intro src h
    rw [litToks_cons x src n (by omega)]
    refine ⟨⟨by omega, rfl⟩, ?_⟩
    rw [tokLen]
    exact ih (src + 1) (by omega)

theorem sumTokLens_mtch (cs : List Nat) (d : Nat) :
    sumTokLens (cs.map (fun c => Tok.mtch c d)) = cs.sum := by
  induction cs with
  | nil => rfl
  | cons c cs ih =>
    rw [List.map_cons, sumTokLens_cons, ih, tokLen, List.sum_cons]

/-- A sequence of match chunks with a common distance is good when the
full copied range agrees with the source. -/
theorem GoodToks_mtch (x : List Nat) (d : Nat) (hd1 : 1 ≤ d) (hd2 : d ≤ 4096) :
    ∀ (cs : List Nat) (pos : Nat), (∀ c ∈ cs, 3 ≤ c ∧ c ≤ 273) → d ≤ pos →
      pos + cs.sum ≤ x.length →
      (∀ i < cs.sum, x.getD (pos - d + i) 0 = x.getD (pos + i) 0) →
      GoodToks x pos (cs.map (fun c => Tok.mtch c d)) := by
  intro cs
  induction cs with
  | nil =>
    intro pos hmem hdp hle hcopy
    trivial
  | cons c cs ih =>
    intro pos hmem hdp hle hcopy
    have hc := hmem c (by simp)
    rw [List.sum_cons] at hle hcopy
    rw [List.map_cons, GoodToks]
    constructor
    · exact ⟨hc.1, hc.2, hd1, hd2, hdp, by omega, fun i hi => hcopy i (by omega)⟩
    · rw [tokLen]
      exact ih (pos + c) (fun e he => hmem e (by simp [he])) (by omega) (by omega)
        (fun i hi => by
          have hcp := hcopy (c + i) (by omega)
          have e1 : pos - d + (c + i) = pos + c - d + i := by omega
          have e2 : pos + (c + i) = pos + c + i := by omega
          rw [e1, e2] at hcp
          exact hcp)

/-- Good tokens expand and serialize within their declared sizes. -/
theorem GoodToks_sizes (x : List Nat) : ∀ (ts : List Tok) (pos : Nat),
    GoodToks x pos ts → ∀ t ∈ ts, 1 ≤ tokLen t ∧ (tokenBytes t).length ≤ tokLen t := by
  intro ts
  induction ts with
  | nil =>
    intro pos hg t ht
    simp at ht
  | cons u ts ih =>
    intro pos hg t ht
    rcases List.mem_cons.mp ht with rfl | hmem
    · obtain ⟨hu, _⟩ := hg
      cases t with
      | lit b => exact ⟨by rw [tokLen], by simp [tokLen, tokenBytes]⟩
      | mtch len d =>
        obtain ⟨h3, _, _, _, _, _, _⟩ := hu
        rw [tokLen, tokenBytes]
        constructor
        · omega
        · split <;> simp only [List.length_cons, List.length_nil] <;> omega
    · exact ih (pos + tokLen u) hg.2 t hmem

/-! ### Decoding one serialized token -/

/-- Unfolding the serializer by one group. -/
theorem serializeFull_cons (us : List Tok) (hne : us ≠ []) :
    serializeFull us =
      flagVal (us.take 8) 128 :: (tokensBytes (us.take 8) ++ serializeFull (us.drop 8)) := by
  rw [serializeFull]
  rw [if_neg (by simpa using hne)]

/-- Decoding one token from its serialized bytes at the head of the
remaining stream: the literal or match branch reproduces exactly the
token's expansion, advances the source cursor past the token's bytes,
and shifts the flag register. -/
theorem decodeTok_sim (x y : List Nat) (maxout : Nat) (t : Tok) (g : List Tok)
    (src pos bits : Nat) (rest : List Nat)
    (hmax : x.length ≤ maxout)
    (hg : (t :: g).length ≤ 8)
    (hgood : TokGood x pos t)
    (hy : y.drop src = tokenBytes t ++ rest) :
    decodeTok y y.length maxout (x.take pos) (flagVal (t :: g) 128) bits src =
      some ⟨src + (tokenBytes t).length, x.take (pos + tokLen t),
        flagVal g 128, bits - 1⟩ := by
  have hshift := flag_shift t g hg
  cases t with
  | lit b =>
    obtain ⟨hpos, hb⟩ := hgood
    have hbit : flagVal (Tok.lit b :: g) 128 &&& 128 ≠ 0 := by
      rw [flag_top_bit]
      simp [isLit]
    rw [decodeTok, if_pos hbit]
    have hbytes : tokenBytes (Tok.lit b) = [b] := rfl
    rw [hbytes] at hy
    have hsrc : src + 1 ≤ y.length := by
      have := drop_len_ge y [b] rest src hy (by simp)
      simpa using this
    have hdl : (x.take pos).length = pos := by
      rw [List.length_take]
      omega
    rw [if_neg (by rw [hdl]; omega)]
    have hrd : y.getD src 0 = b := by
      have := getD_of_drop y [b] rest src 0 hy (by simp)
      simpa using this
    rw [hrd, hshift, hb, take_push x pos hpos]
    rfl
  | mtch len d =>
    obtain ⟨h3, h273, hd1, hd4096, hdpos, hlen, hcopy⟩ := hgood
    have hbit : ¬flagVal (Tok.mtch len d :: g) 128 &&& 128 ≠ 0 := by
      rw [flag_top_bit]
      simp [isLit]
    rw [decodeTok, if_neg hbit]
    have hdm1 : d - 1 ≤ 4095 := by omega
    have hdl : (x.take pos).length = pos := by
      rw [List.length_take]
      omega
    have hdiv : (d - 1) / 256 ≤ 15 := by omega
    have hcp : decodeCopy maxout (x.take pos) (flagVal (Tok.mtch len d :: g) 128) bits d len
        (src + (tokenBytes (Tok.mtch len d)).length) =
        some ⟨src + (tokenBytes (Tok.mtch len d)).length, x.take (pos + len),
          flagVal g 128, bits - 1⟩ := by
      rw [decodeCopy, if_neg (by rw [hdl]; omega), if_neg (by rw [hdl]; omega)]
      rw [hshift, seqCopy_take x d hd1 len pos hdpos hlen hcopy]
    by_cases hshort : len < 18
    · have hbytes : tokenBytes (Tok.mtch len d) =
          [(len - 2) * 16 + (d - 1) / 256, (d - 1) % 256] := by
        rw [tokenBytes, if_pos hshort]
      rw [hbytes] at hy
      have hsrc : src + 2 ≤ y.length := by
        have := drop_len_ge y _ rest src hy (by simp)
        simpa using this
      rw [if_neg (by omega)]
      have hrd1 : y.getD src 0 = (len - 2) * 16 + (d - 1) / 256 := by
        have := getD_of_drop y _ rest src 0 hy (by simp)
        simpa using this
      have hrd2 : y.getD (src + 1) 0 = (d - 1) % 256 := by
        have := getD_of_drop y _ rest src 1 hy (by simp)
        simpa using this
      dsimp only
      rw [hrd1, hrd2]
      have hlc : ((len - 2) * 16 + (d - 1) / 256) >>> 4 = len - 2 := by
        rw [Nat.shiftRight_eq_div_pow]
        have e : (2 : Nat) ^ 4 = 16 := by norm_num
        rw [e]
        omega
      have hand : ((len - 2) * 16 + (d - 1) / 256) &&& 15 = (d - 1) / 256 := by
        rw [and_15]
        omega
      have hdist : (((d - 1) / 256) <<< 8 ||| (d - 1) % 256) + 1 = d := by
        rw [Nat.shiftLeft_eq]
        have e : (2 : Nat) ^ 8 = 256 := by norm_num
        rw [e]
        rw [lor_eq_add 8 ((d - 1) % 256) ((d - 1) / 256 * 256) (by omega)
          ⟨(d - 1) / 256, by ring⟩]
        omega
      rw [hlc, hand, hdist]
      rw [if_neg (by omega : ¬len - 2 = 0)]
      have hl2 : len - 2 + 2 = len := by omega
      rw [hl2, tokLen]
      have e2 : src + 2 = src + (tokenBytes (Tok.mtch len d)).length := by
        rw [hbytes]
        simp
      rw [e2]
      exact hcp
    · have hbytes : tokenBytes (Tok.mtch len d) =
          [(d - 1) / 256, (d - 1) % 256, len - 18] := by
        rw [tokenBytes, if_neg hshort]
      rw [hbytes] at hy
      have hsrc : src + 3 ≤ y.length := by
        have := drop_len_ge y _ rest src hy (by simp)
        simpa using this
      rw [if_neg (by omega)]
      have hrd1 : y.getD src 0 = (d - 1) / 256 := by
        have := getD_of_drop y _ rest src 0 hy (by simp)
        simpa using this
      have hrd2 : y.getD (src + 1) 0 = (d - 1) % 256 := by
        have := getD_of_drop y _ rest src 1 hy (by simp)
        simpa using this
      have hrd3 : y.getD (src + 2) 0 = len - 18 := by
        have := getD_of_drop y _ rest src 2 hy (by simp)
        simpa using this
      dsimp only
      rw [hrd1, hrd2]
      have hlc : ((d - 1) / 256) >>> 4 = 0 := by
        rw [Nat.shiftRight_eq_div_pow]
        have e : (2 : Nat) ^ 4 = 16 := by norm_num
        rw [e]
        omega
      have hand : ((d - 1) / 256) &&& 15 = (d - 1) / 256 := by
        rw [and_15]
        omega
      have hdist : (((d - 1) / 256) <<< 8 ||| (d - 1) % 256) + 1 = d := by
        rw [Nat.shiftLeft_eq]
        have e : (2 : Nat) ^ 8 = 256 := by norm_num
        rw [e]
        rw [lor_eq_add 8 ((d - 1) % 256) ((d - 1) / 256 * 256) (by omega)
          ⟨(d - 1) / 256, by ring⟩]
        omega
      rw [hlc, hand, hdist]
      rw [if_pos rfl, if_neg (by omega)]
      rw [hrd3]
      have hl18 : len - 18 + 18 = len := by omega
      rw [hl18, tokLen]
      have e3 : src + 3 = src + (tokenBytes (Tok.mtch len d)).length := by
        rw [hbytes]
        simp
      rw [e3]
      exact hcp

/-- The decode loop on a well-formed serialized token stream reproduces
the source data exactly. The state is mid-group: `g` is the remainder of
the current group (flag register `flagVal g 128`, `bits` flag bits left),
`us` the remaining full stream, `rest` arbitrary trailing bytes. -/
theorem decodeLoop_sim (x y : List Nat) (maxout : Nat) (hmax : x.length ≤ maxout) :
    ∀ (W : Nat) (g us : List Tok) (src pos bits : Nat) (rest : List Nat),
      W = x.length - pos →
      GoodToks x pos (g ++ us) →
      pos + sumTokLens (g ++ us) = x.length →
      g.length ≤ 8 → g.length ≤ bits → bits ≤ 8 →
      (us ≠ [] → bits = g.length) →
      y.drop src = tokensBytes g ++ (serializeFull us ++ rest) →
      decodeLoop y y.length maxout x.length ⟨src, x.take pos, flagVal g 128, bits⟩ =
        some x := by
  intro W
  induction W using Nat.strong_induction_on with
  | _ W ih =>
    intro g us src pos bits rest hW hgood hsum hg8 hgb hb8 hbits hy
    have hple : pos ≤ x.length := by omega
    by_cases hlt : pos < x.length
    case neg =>
      rw [decodeLoop_done _ _ _ _ _ (by
        dsimp only
        rw [List.length_take]
        omega)]
      have hpe : pos = x.length := by omega
      rw [hpe, List.take_length]
    case pos =>
      have hdlen : (x.take pos).length = pos := by
        rw [List.length_take]
        omega
      cases g with
      | cons t g' =>
        have hg1 : 1 ≤ bits := by
          simp only [List.length_cons] at hgb
          omega
        rw [List.cons_append, GoodToks] at hgood
        obtain ⟨hgt, hgtail⟩ := hgood
        rw [tokensBytes, List.append_assoc] at hy
        have htok := decodeTok_sim x y maxout t g' src pos bits
          (tokensBytes g' ++ (serializeFull us ++ rest)) hmax hg8 hgt hy
        have hstep : decodeStep y y.length maxout
            ⟨src, x.take pos, flagVal (t :: g') 128, bits⟩ =
            some ⟨src + (tokenBytes t).length, x.take (pos + tokLen t),
              flagVal g' 128, bits - 1⟩ := by
          rw [decodeStep]
          dsimp only
          rw [if_neg (by omega)]
          exact htok
        rw [decodeLoop_continue _ _ _ _ _ _ (by dsimp only; rw [hdlen]; exact hlt) hstep]
        have htl1 : 1 ≤ tokLen t := by
          cases t with
          | lit b => rw [tokLen]
          | mtch l d =>
            rw [tokLen]
            obtain ⟨h3, _⟩ := hgt
            omega
        have hy2 : y.drop (src + (tokenBytes t).length) =
            tokensBytes g' ++ (serializeFull us ++ rest) :=
          drop_shift y _ _ src hy
        have hsum2 : pos + tokLen t + sumTokLens (g' ++ us) = x.length := by
          rw [List.cons_append, sumTokLens_cons] at hsum
          omega
        exact ih (x.length - (pos + tokLen t)) (by omega) g' us
          (src + (tokenBytes t).length) (pos + tokLen t) (bits - 1) rest rfl
          hgtail hsum2
          (by simp only [List.length_cons] at hg8; omega)
          (by simp only [List.length_cons] at hgb; omega)
          (by omega)
          (fun hne => by
            have := hbits hne
            simp only [List.length_cons] at this
            omega)
          hy2
      | nil =>
        have hus : us ≠ [] := by
          intro hcon
          subst hcon
          rw [List.nil_append] at hsum
          rw [sumTokLens_nil] at hsum
          omega
        have hbits0 : bits = 0 := by
          have := hbits hus
          simpa using this
        rw [List.nil_append] at hgood hsum
        rw [tokensBytes, List.nil_append] at hy
        obtain ⟨t, us2, rfl⟩ : ∃ t us2, us = t :: us2 := by
          cases us with
          | nil => exact absurd rfl hus
          | cons a l => exact ⟨a, l, rfl⟩
        have hser := serializeFull_cons (t :: us2) hus
        have hG : (t :: us2).take 8 = t :: us2.take 7 := rfl
        have hD : (t :: us2).drop 8 = us2.drop 7 := rfl
        rw [hG, hD] at hser
        rw [hser] at hy
        have hy1 : y.drop src = [flagVal (t :: us2.take 7) 128] ++
            ((tokensBytes (t :: us2.take 7) ++ serializeFull (us2.drop 7)) ++ rest) := by
          rw [hy]
          rfl
        have hsrclt : src + 1 ≤ y.length := by
          have := drop_len_ge y [flagVal (t :: us2.take 7) 128] _ src hy1 (by simp)
          simpa using this
        have hrd : y.getD src 0 = flagVal (t :: us2.take 7) 128 := by
          have := getD_of_drop y [flagVal (t :: us2.take 7) 128] _ src 0 hy1 (by simp)
          simpa using this
        have hy2 : y.drop (src + 1) = tokensBytes (t :: us2.take 7) ++
            (serializeFull (us2.drop 7) ++ rest) := by
          have := drop_shift y [flagVal (t :: us2.take 7) 128] _ src hy1
          simpa using this
        rw [tokensBytes, List.append_assoc] at hy2
        have hsplit : t :: us2 = t :: (us2.take 7 ++ us2.drop 7) := by
          rw [List.take_append_drop]
        rw [hsplit, GoodToks] at hgood
        obtain ⟨hgt, hgtail⟩ := hgood
        have htok := decodeTok_sim x y maxout t (us2.take 7) (src + 1) pos 8
          (tokensBytes (us2.take 7) ++ (serializeFull (us2.drop 7) ++ rest)) hmax
          (by
            simp only [List.length_cons, List.length_take]
            omega)
          hgt hy2
        have hstep : decodeStep y y.length maxout
            ⟨src, x.take pos, flagVal ([] : List Tok) 128, bits⟩ =
            some ⟨src + 1 + (tokenBytes t).length, x.take (pos + tokLen t),
              flagVal (us2.take 7) 128, 8 - 1⟩ := by
          rw [decodeStep]
          dsimp only
          rw [if_pos hbits0, if_neg (by omega), hrd]
          exact htok
        rw [decodeLoop_continue _ _ _ _ _ _ (by dsimp only; rw [hdlen]; exact hlt) hstep]
        have htl1 : 1 ≤ tokLen t := by
          cases t with
          | lit b => rw [tokLen]
          | mtch l d =>
            rw [tokLen]
            obtain ⟨h3, _⟩ := hgt
            omega
        have hsum2 : pos + tokLen t + sumTokLens (us2.take 7 ++ us2.drop 7) = x.length := by
          rw [hsplit, sumTokLens_cons] at hsum
          omega
        have hy3 : y.drop (src + 1 + (tokenBytes t).length) =
            tokensBytes (us2.take 7) ++ (serializeFull (us2.drop 7) ++ rest) :=
          drop_shift y _ _ (src + 1) hy2
        exact ih (x.length - (pos + tokLen t)) (by omega) (us2.take 7) (us2.drop 7)
          (src + 1 + (tokenBytes t).length) (pos + tokLen t) (8 - 1) rest rfl
          hgtail hsum2
          (by simp only [List.length_take]; omega)
          (by simp only [List.length_take]; omega)
          (by omega)
          (fun hne => by
            have hlen7 : 7 ≤ us2.length := by
              by_contra hcon
              have : us2.drop 7 = [] := List.drop_eq_nil_of_le (by omega)
              exact hne this
            simp only [List.length_take]
            omega)
          hy3

/-! ### The main compression loop at the token level -/

/-- Master invariant of `compressLoop`: started on a writer representing
the good token stream `ts` covering the first `ip - 2` source bytes, with
every hash-table entry strictly below the cursor, the loop returns a
writer representing a longer good token stream whose coverage equals the
returned anchor, which stays at most `|x| - 4`. -/
theorem compressLoop_spec (x : List Nat) (hb : ∀ b ∈ x, b < 256)
    (h16 : 16 ≤ x.length) (h31 : x.length < 2147483648) :
    ∀ (W : Nat) (htab : Nat → Nat) (ip : Nat) (ts : List Tok),
      W = (x.length - 13) - ip →
      (∀ i, htab i < ip) →
      2 ≤ ip → ip ≤ x.length - 2 →
      sumTokLens ts = ip - 2 →
      GoodToks x 0 ts →
      ∃ us,
        compressLoop x (x.length - 4) (x.length - 13) htab ip (ip - 2) (writerOf ts) =
          (writerOf (ts ++ us), sumTokLens (ts ++ us)) ∧
        GoodToks x 0 (ts ++ us) ∧
        sumTokLens (ts ++ us) ≤ x.length - 4 := by
  intro W
  induction W using Nat.strong_induction_on with
  | _ W ih =>
    intro htab ip ts hW hinv hip2 hiple hsum hgood
    rw [compressLoop]
    by_cases hip : ip < x.length - 13
    case neg =>
      rw [dif_neg hip]
      refine ⟨[], ?_, by rwa [List.append_nil], by rw [List.append_nil]; omega⟩
      rw [List.append_nil, hsum]
    case pos =>
      rw [dif_pos hip]
      dsimp only
      split
      · refine ⟨[], ?_, by rwa [List.append_nil], by rw [List.append_nil]; omega⟩
        rw [List.append_nil, hsum]
      · rename_i refo distance heq
        have hfull : findMatch x (x.length - 13) htab ip =
            ((findMatch x (x.length - 13) htab ip).1,
              (findMatch x (x.length - 13) htab ip).2.1, some (refo, distance)) := by
          rw [← heq]
        obtain ⟨c1, c2, c3, c4, c5, c6, c7, c8, c9, c10, c11⟩ :=
          findMatch_hit x (x.length - 13) htab _ ip _ refo distance hinv (by omega) hfull
        by_cases hge : (findMatch x (x.length - 13) htab ip).2.1 ≥ x.length - 13
        · rw [if_pos hge]
          refine ⟨[], ?_, by rwa [List.append_nil], by rw [List.append_nil]; omega⟩
          rw [List.append_nil, hsum]
        · rw [if_neg hge]
          set ip1 := (findMatch x (x.length - 13) htab ip).2.1 with hip1def
          set ipm := ip1 - 1 with hipmdef
          have hipm_lt : ipm < x.length - 13 := c6
          have hipm_ge : ip ≤ ipm := c5
          have hanchor_lt : ip - 2 < ipm := by omega
          rw [if_pos hanchor_lt]
          have hemitlits := writer_emit_literals_writerOf ts (ipm - (ip - 2)) x (ip - 2)
            (by omega)
          rw [hemitlits]
          set len := compare_match x (refo + 3) (ipm + 3) (x.length - 4) + 3 with hlendef
          clear_value ip1 ipm len
          have hcmle := compare_match_le x (refo + 3) (ipm + 3) (x.length - 4)
            (by omega)
          have hlen_le : ipm + len ≤ x.length - 4 := by omega
          have h3len : 3 ≤ len := by omega
          have hdist_ipm : distance ≤ ipm := by omega
          have hrefo : refo = ipm - distance := by omega
          have hbytes : ∀ j < len, x.getD (ipm - distance + j) 0 = x.getD (ipm + j) 0 := by
            intro j hj
            rw [← hrefo]
            rcases Nat.lt_or_ge j 3 with hj3 | hj3
            · exact (read_u24_inj x hb ipm refo c9 j hj3).symm
            · have hcb := compare_match_bytes x hb (refo + 3) (ipm + 3) (x.length - 4)
                (j - 3) (by omega)
              have e1 : refo + 3 + (j - 3) = refo + j := by omega
              have e2 : ipm + 3 + (j - 3) = ipm + j := by omega
              rw [e1, e2] at hcb
              exact hcb
          have hemitmatch := writer_emit_match_writerOf
            (ts ++ litToks x (ip - 2) (ipm - (ip - 2))) len distance h3len c1 (by omega)
          rw [hemitmatch]
          set ts2 := (ts ++ litToks x (ip - 2) (ipm - (ip - 2))) ++
            (matchChunks len).map (fun c => Tok.mtch c distance) with hts2def
          have hsumlits : sumTokLens (litToks x (ip - 2) (ipm - (ip - 2))) =
              ipm - (ip - 2) := sumTokLens_litToks x _ _ (by omega)
          have hsumchunks : sumTokLens ((matchChunks len).map (fun c => Tok.mtch c distance)) =
              len := by
            rw [sumTokLens_mtch, matchChunks_sum]
          have hsum2 : sumTokLens ts2 = ipm + len + 2 - 2 := by
            rw [hts2def, sumTokLens_append, sumTokLens_append, hsum, hsumlits, hsumchunks]
            omega
          have hgood2 : GoodToks x 0 ts2 := by
            rw [hts2def]
            rw [GoodToks_append]
            constructor
            · rw [GoodToks_append]
              refine ⟨hgood, ?_⟩
              rw [hsum]
              have := GoodToks_lits x (ipm - (ip - 2)) (ip - 2) (by omega)
              simpa using this
            · rw [sumTokLens_append, hsum, hsumlits]
              have hstart : 0 + (ip - 2 + (ipm - (ip - 2))) = ipm := by omega
              rw [hstart]
              exact GoodToks_mtch x distance c1 (by omega) (matchChunks len) ipm
                (matchChunks_mem len h3len) (by omega) (by rw [matchChunks_sum]; omega)
                (by rw [matchChunks_sum]; exact hbytes)
          have hrec := ih ((x.length - 13) - (ipm + len + 2)) (by omega)
            (fun i => if i = compute_hash (read_u32 x (ipm + len) >>> 8) then ipm + len + 1
              else if i = compute_hash (read_u32 x (ipm + len) &&& 16777215) then ipm + len
              else (findMatch x (x.length - 13) htab ip).1 i)
            (ipm + len + 2) ts2 rfl
            (by
              intro i
              dsimp only
              split
              · omega
              · split
                · omega
                · have := c10 i
                  omega)
            (by omega) (by omega)
            hsum2 hgood2
          obtain ⟨us', hres, hgood3, hbound3⟩ := hrec
          refine ⟨litToks x (ip - 2) (ipm - (ip - 2)) ++
            ((matchChunks len).map (fun c => Tok.mtch c distance) ++ us'), ?_, ?_, ?_⟩
          · rw [← List.append_assoc, ← List.append_assoc, ← hts2def]
            have e2 : ipm + len + 2 - 2 = ipm + len := by omega
            rw [e2] at hres
            exact hres
          · rw [← List.append_assoc, ← List.append_assoc, ← hts2def]
            exact hgood3
          · rw [← List.append_assoc, ← List.append_assoc, ← hts2def]
            exact hbound3

/-! ### The compressed stream as a serialized good token stream -/

/-- `yaz0_get_decompressed_size` inverts the big-endian header encoding. -/
theorem get_size_header (L : Nat) (rest : List Nat) (h31 : L < 2147483648) :
    yaz0_get_decompressed_size
      ([89, 97, 122, 48, (L >>> 24) &&& 255, (L >>> 16) &&& 255,
        (L >>> 8) &&& 255, L &&& 255, 0, 0, 0, 0, 0, 0, 0, 0] ++ rest) = L := by
  have hb4 : (L >>> 24) &&& 255 = L / 16777216 % 256 := by
    rw [and_255, Nat.shiftRight_eq_div_pow]
  have hb5 : (L >>> 16) &&& 255 = L / 65536 % 256 := by
    rw [and_255, Nat.shiftRight_eq_div_pow]
  have hb6 : (L >>> 8) &&& 255 = L / 256 % 256 := by
    rw [and_255, Nat.shiftRight_eq_div_pow]
  have hb7 : L &&& 255 = L % 256 := and_255 _
  have hvalid : yaz0_is_valid
      ([89, 97, 122, 48, (L >>> 24) &&& 255, (L >>> 16) &&& 255,
        (L >>> 8) &&& 255, L &&& 255, 0, 0, 0, 0, 0, 0, 0, 0] ++ rest) = true := rfl
  rw [yaz0_get_decompressed_size, if_pos hvalid]
  simp only [List.cons_append, List.nil_append, List.getD_cons_succ, List.getD_cons_zero,
    hb4, hb5, hb6, hb7]
  rw [be32_eq _ _ _ _ (by omega) (by omega) (by omega) (by omega)]
  omega

/-- The output of `yaz0_compress` is the 16-byte header followed by the
writer state of a good token stream that covers the input exactly. -/
theorem yaz0_compress_stream (x : List Nat) (hb : ∀ b ∈ x, b < 256)
    (h16 : 16 ≤ x.length) (h31 : x.length < 2147483648) :
    ∃ ts, yaz0_compress x =
        [89, 97, 122, 48, (x.length >>> 24) &&& 255, (x.length >>> 16) &&& 255,
          (x.length >>> 8) &&& 255, x.length &&& 255, 0, 0, 0, 0, 0, 0, 0, 0] ++
          (writerOf ts).out ∧
      GoodToks x 0 ts ∧ sumTokLens ts = x.length := by
  obtain ⟨us, hres, hgood, hbound⟩ := compressLoop_spec x hb h16 h31
    ((x.length - 13) - 2) (fun _ => 0) 2 [] rfl (fun i => by simp)
    (by omega) (by omega) rfl trivial
  rw [List.nil_append] at hres hgood hbound
  rw [show (2 : Nat) - 2 = 0 from rfl] at hres
  have hw0 : writer_new_group ⟨[], 0, 0⟩ = writerOf ([] : List Tok) := by
    rw [writerOf_nil]
    rfl
  refine ⟨us ++ litToks x (sumTokLens us) (x.length - sumTokLens us), ?_, ?_, ?_⟩
  · rw [yaz0_compress_eq_header_append x, hw0, hres]
    dsimp only
    rw [writer_emit_literals_writerOf us (x.length - sumTokLens us) x (sumTokLens us)
      (by omega)]
  · rw [GoodToks_append]
    refine ⟨hgood, ?_⟩
    have := GoodToks_lits x (x.length - sumTokLens us) (sumTokLens us) (by omega)
    simpa using this
  · rw [sumTokLens_append, sumTokLens_litToks x _ _ (by omega)]
    omega

/-! ### Output size accounting -/

theorem tokensBytes_len_le (ts : List Tok)
    (h : ∀ t ∈ ts, (tokenBytes t).length ≤ tokLen t) :
    (tokensBytes ts).length ≤ sumTokLens ts := by
  induction ts with
  | nil => simp [tokensBytes, sumTokLens_nil]
  | cons t ts ih =>
    rw [tokensBytes, sumTokLens_cons, List.length_append]
    have h1 := h t (by simp)
    have h2 := ih (fun u hu => h u (by simp [hu]))
    omega

theorem length_le_sumTokLens (ts : List Tok) (h : ∀ t ∈ ts, 1 ≤ tokLen t) :
    ts.length ≤ sumTokLens ts := by
  induction ts with
  | nil => simp [sumTokLens_nil]
  | cons t ts ih =>
    rw [List.length_cons, sumTokLens_cons]
    have h1 := h t (by simp)
    have h2 := ih (fun u hu => h u (by simp [hu]))
    omega

/-- The serialized length is one flag byte per (started) group of eight
tokens plus the payload bytes. -/
theorem serializeFull_length (ts : List Tok) :
    (serializeFull ts).length = (ts.length + 7) / 8 + (tokensBytes ts).length := by
  generalize hn : ts.length = n
  induction n using Nat.strong_induction_on generalizing ts with
  | _ n ih =>
    rcases List.eq_nil_or_concat ts with rfl | hcons
    · rw [serializeFull_nil, tokensBytes]
      simp at hn
      omega
    · have hpos : 0 < ts.length := by
        obtain ⟨l, e, rfl⟩ := hcons
        simp
      rcases Nat.lt_or_ge ts.length 9 with h8 | h8
      · rw [serializeFull_small ts (by intro hc; rw [hc] at hpos; simp at hpos) (by omega)]
        rw [List.length_cons]
        omega
      · have hsplit : ts = ts.take 8 ++ ts.drop 8 := (List.take_append_drop 8 ts).symm
        have hlen8 : (ts.take 8).length = 8 := by
          rw [List.length_take]
          omega
        have hblock : serializeFull ts = flagVal (ts.take 8) 128 ::
            (tokensBytes (ts.take 8) ++ serializeFull (ts.drop 8)) := by
          conv_lhs => rw [hsplit]
          exact serializeFull_block _ _ hlen8
        have htb : tokensBytes ts = tokensBytes (ts.take 8) ++ tokensBytes (ts.drop 8) := by
          conv_lhs => rw [hsplit]
          exact tokensBytes_append _ _
        have hrec := ih (ts.drop 8).length (by simp; omega) (ts.drop 8) rfl
        rw [hblock, htb, List.length_cons, List.length_append, List.length_append, hrec,
          List.length_drop]
        omega

/-- The writer output size is bounded by the covered length plus one
eighth of it plus one. -/
theorem writerOf_out_le (ts : List Tok)
    (h : ∀ t ∈ ts, 1 ≤ tokLen t ∧ (tokenBytes t).length ≤ tokLen t) :
    (writerOf ts).out.length ≤ sumTokLens ts + sumTokLens ts / 8 + 1 := by
  have h1 : (tokensBytes ts).length ≤ sumTokLens ts :=
    tokensBytes_len_le ts (fun t ht => (h t ht).2)
  have h2 : ts.length ≤ sumTokLens ts :=
    length_le_sumTokLens ts (fun t ht => (h t ht).1)
  have h3 := serializeFull_length ts
  have h4 : (writerOf ts).out.length =
      (serializeFull ts).length + (if ts.length % 8 = 0 then 1 else 0) := by
    rw [writerOf_out, List.length_append]
    split <;> rfl
  by_cases hal : ts.length % 8 = 0
  · rw [if_pos hal] at h4
    omega
  · rw [if_neg hal] at h4
    omega

/-- C3: for every byte input `x` with `16 ≤ |x|` (and `|x| < 2^31`, the C
`int` domain of the `length` parameter), the value returned by
`yaz0_compress(x, |x|)` — the length of the emitted stream — is at most
`FASTYZ_BOUND(|x|) = 16 + |x| + |x|/8 + 1`. -/
theorem yaz0_compress_size_bound (x : List Nat) (h16 : 16 ≤ x.length)
    (h31 : x.length < 2147483648) (hb : ∀ b ∈ x, b < 256) :
    (yaz0_compress x).length ≤ 16 + x.length + x.length / 8 + 1 := by
  obtain ⟨ts, hyeq, hgood, hsum⟩ := yaz0_compress_stream x hb h16 h31
  rw [hyeq, List.length_append]
  have hhd : ([89, 97, 122, 48, (x.length >>> 24) &&& 255, (x.length >>> 16) &&& 255,
      (x.length >>> 8) &&& 255, x.length &&& 255,
      0, 0, 0, 0, 0, 0, 0, 0] : List Nat).length = 16 := rfl
  rw [hhd]
  have hout := writerOf_out_le ts (GoodToks_sizes x ts 0 hgood)
  rw [hsum] at hout
  omega

/-- Witness for `yaz0_compress_size_bound` on a concrete 16-byte input. -/
theorem yaz0_compress_size_bound_witness :
    (yaz0_compress (List.range 16)).length ≤
      16 + (List.range 16).length + (List.range 16).length / 8 + 1 :=
  yaz0_compress_size_bound (List.range 16) (by decide) (by decide) (by decide)

/-! ### The round trip (claim C1) -/

/-- Dropping the 16-byte header. -/
theorem drop_sixteen (a b : List Nat) (h : a.length = 16) : (a ++ b).drop 16 = b := by
  rw [← h, List.drop_left]

/-- C1: round-trip — compressing a byte input `x` with `16 ≤ |x|` (and
`|x| < 2^31`, the C `int` domain) and decompressing the result with
output capacity `maxout = |x|` writes back exactly the bytes of `x`; the
C call returns `|x|`. -/
theorem yaz0_roundtrip (x : List Nat) (h16 : 16 ≤ x.length)
    (h31 : x.length < 2147483648) (hb : ∀ b ∈ x, b < 256) :
    yaz0_decompress (yaz0_compress x) (yaz0_compress x).length x.length = some x ∧
      yaz0_decompress_ret (yaz0_compress x) (yaz0_compress x).length x.length = x.length := by
  obtain ⟨ts, hyeq, hgood, hsum⟩ := yaz0_compress_stream x hb h16 h31
  have hhd : ([89, 97, 122, 48, (x.length >>> 24) &&& 255, (x.length >>> 16) &&& 255,
      (x.length >>> 8) &&& 255, x.length &&& 255,
      0, 0, 0, 0, 0, 0, 0, 0] : List Nat).length = 16 := rfl
  have hylen : 16 ≤ (yaz0_compress x).length := by
    rw [hyeq, List.length_append, hhd]
    omega
  have hD : yaz0_get_decompressed_size (yaz0_compress x) = x.length := by
    rw [hyeq]
    exact get_size_header x.length _ h31
  have hdrop : (yaz0_compress x).drop 16 = tokensBytes ([] : List Tok) ++
      (serializeFull ts ++ (if ts.length % 8 = 0 then [0] else [])) := by
    rw [hyeq, tokensBytes, List.nil_append, drop_sixteen _ _ hhd]
    exact writerOf_out ts
  have hsim := decodeLoop_sim x (yaz0_compress x) x.length (le_refl _)
    (x.length - 0) [] ts 16 0 0 (if ts.length % 8 = 0 then [0] else [])
    rfl
    (by rw [List.nil_append]; exact hgood)
    (by rw [List.nil_append, hsum]; omega)
    (by simp) (by simp) (by omega)
    (fun _ => rfl)
    hdrop
  have hdec : yaz0_decompress (yaz0_compress x) (yaz0_compress x).length x.length =
      some x := by
    rw [yaz0_decompress_eq]
    rw [if_neg (by omega), hD]
    rw [if_neg (by omega)]
    rw [if_neg (by
      rw [int32ofUInt32, if_pos h31]
      omega)]
    exact hsim
  refine ⟨hdec, ?_⟩
  rw [yaz0_decompress_ret, hdec]

/-- Witness for `yaz0_roundtrip` on a concrete 16-byte input. -/
theorem yaz0_roundtrip_witness :
    yaz0_decompress (yaz0_compress (List.range 16)) (yaz0_compress (List.range 16)).length
        (List.range 16).length = some (List.range 16) ∧
      yaz0_decompress_ret (yaz0_compress (List.range 16))
        (yaz0_compress (List.range 16)).length (List.range 16).length =
        (List.range 16).length :=
  yaz0_roundtrip (List.range 16) (by decide) (by decide) (by decide)

end FastYZ
